import Mathlib

/-!
Verification development for the `nx_parallel` chunk-parallel graph-analytics
core: betweenness centrality (`algorithms/centrality/betweenness.py`) and
tournament reachability / strong connectivity (`algorithms/tournament.py`).

The Python code is embedded shallowly:
* graphs are finite adjacency structures over natural-number node ids;
* Python `dict`s keyed by nodes are association lists (`List (ℕ × ℚ)`), so
  that key sets are observable;
* floats are exact rationals (`ℚ`); the joblib `Parallel` map is a `List.map`
  over chunks, which preserves submission order exactly as the executor does;
* fallible behaviour (`ValueError` from `random.sample`, `IndexError` from
  indexing an empty result list) is `Except`.

Helper functions of this project that live outside the two source files
(`nx_parallel.chunks`, `nx_parallel.cpu_count`) and the external collaborators
the spec describes as components of this system (the shortest-path engines,
accumulation and rescaling, the seeded sampler) are modelled from the spec;
each such definition says so in its doc comment.
-/

namespace NxParallel

/-- A score map: the embedding of a Python `dict` from node ids to floats,
as an association list so that the key set (and key order) is observable. -/
abbrev ScoreMap := List (ℕ × ℚ)

/-- Lookup in a score map (`d[x]`); missing keys read as `0`.  In every
execution path of the embedded code, reads only happen at present keys, so
the default is never observable. -/
def dget (m : ScoreMap) (x : ℕ) : ℚ :=
  match m.find? (fun p => p.1 == x) with
  | some p => p.2
  | none => 0

/-- `d[x] += q` on a dict: updates the entry at key `x`, leaving absent keys
absent (Python would raise `KeyError`; the embedded code never hits that). -/
def dincr (m : ScoreMap) (x : ℕ) (q : ℚ) : ScoreMap :=
  m.map (fun p => if p.1 = x then (p.1, p.2 + q) else p)

/-- A directed or undirected graph, embedding the read-only query surface the
code uses: ordered node list (`list(G)` / `G.nodes`), adjacency
(`G._adj[v]` / `G[v]`), directedness, and an edge-weight lookup used by the
weighted shortest-path engine.  Well-formedness captures that Python dict
keys are unique and adjacency only mentions graph nodes. -/
structure Graph where
  nodes : List ℕ
  adj : ℕ → List ℕ
  directed : Bool
  wt : ℕ → ℕ → ℚ
  nodes_nodup : nodes.Nodup
  adj_nodup : ∀ v, (adj v).Nodup
  adj_mem : ∀ v w, w ∈ adj v → w ∈ nodes

/-- Adjacency function built from an association list, for writing concrete
graphs: nodes missing from the list have no out-neighbors. -/
def adjOf (al : List (ℕ × List ℕ)) (v : ℕ) : List ℕ :=
  (al.find? (fun p => p.1 == v)).elim [] Prod.snd

lemma adjOf_nodup (al : List (ℕ × List ℕ)) (h : ∀ p ∈ al, p.2.Nodup) (v : ℕ) :
    (adjOf al v).Nodup := by
  unfold adjOf
  cases hf : al.find? (fun p => p.1 == v) with
  | none => simp
  | some p => exact h p (List.mem_of_find?_eq_some hf)

lemma adjOf_mem (al : List (ℕ × List ℕ)) (ns : List ℕ)
    (h : ∀ p ∈ al, ∀ w ∈ p.2, w ∈ ns) (v w : ℕ) (hw : w ∈ adjOf al v) : w ∈ ns := by
  unfold adjOf at hw
  cases hf : al.find? (fun p => p.1 == v) with
  | none => rw [hf] at hw; simp at hw
  | some p => rw [hf] at hw; exact h p (List.mem_of_find?_eq_some hf) w hw

/-- Concrete graph constructor from a node list and an adjacency association
list; all well-formedness obligations are decidable. -/
def mkGraph (ns : List ℕ) (al : List (ℕ × List ℕ)) (dir : Bool) (wt : ℕ → ℕ → ℚ)
    (h1 : ns.Nodup) (h2 : ∀ p ∈ al, p.2.Nodup)
    (h3 : ∀ p ∈ al, ∀ w ∈ p.2, w ∈ ns) : Graph :=
  ⟨ns, adjOf al, dir, wt, h1, adjOf_nodup al h2, adjOf_mem al ns h3⟩

/-- Errors surfaced by the embedded entry points: `ValueError` from
`random.sample` (the spec's InvalidParameter) and `IndexError` from `bt_cs[0]`
on an empty list. -/
inductive Err where
  | invalidParameter
  | indexError
  deriving DecidableEq, Repr

/-- Modelled from the spec (§4.2 ChunkPartitioner; implements
`nx_parallel.chunks`, which is not under `src/`): split an ordered sequence
into contiguous chunks of length `n`, the last holding the remainder; an
empty sequence yields no chunks, and a zero requested size (never produced by
the callers, which pass `max(_ , 1)`) yields no chunks.  The fuel, seeded
with the sequence length by `chunks` below, keeps the recursion structural;
one unit is spent per emitted chunk, and every emitted chunk is nonempty, so
the seed always suffices. -/
def chunksFuel : ℕ → List α → ℕ → List (List α)
  | _, _, 0 => []
  | _, [], _ + 1 => []
  | 0, _ :: _, _ + 1 => []
  | fuel + 1, a :: l, n + 1 =>
    (a :: l).take (n + 1) :: chunksFuel fuel ((a :: l).drop (n + 1)) (n + 1)

/-- `nx_parallel.chunks(iterable, n)` — see `chunksFuel`. -/
def chunks (l : List α) (n : ℕ) : List (List α) :=
  chunksFuel l.length l n

/-- Modelled from the spec (§4.1 WorkerPoolResolver; implements
`nx_parallel.cpu_count`, which is not under `src/`): `cores` is the ambient
`os.cpu_count()` reading; positive requests are taken as given, negative
requests follow `max(1, cores + 1 + request)`, zero (an invalid request)
falls back to all cores. -/
def cpu_count (cores : ℕ) (n_jobs : Int) : ℕ :=
  if 0 < n_jobs then n_jobs.toNat
  else if n_jobs < 0 then max 1 ((cores : Int) + 1 + n_jobs).toNat
  else cores

/- ----------------------------------------------------------------------
Tournament algorithms (`algorithms/tournament.py`).
---------------------------------------------------------------------- -/

/-- `set(G)` — the node set of the graph as a finite set. -/
def setG (G : Graph) : Finset ℕ := G.nodes.toFinset

/-- The body of `two_nbrhood_subset` for one vertex:
`v_nbrs | {x for nbr in v_nbrs for x in G_adj[nbr]}` — the out-neighbors of
`v` together with the out-neighbors of those out-neighbors. -/
def twoNbrhood (G : Graph) (v : ℕ) : Finset ℕ :=
  (G.adj v).toFinset ∪ (G.adj v).toFinset.biUnion (fun nbr => (G.adj nbr).toFinset)

/-- `two_nbrhood_subset(G, chunk)`: the two-hop neighborhood of each vertex of
the chunk, in chunk order. -/
def two_nbrhood_subset (G : Graph) (chunk : List ℕ) : List (Finset ℕ) :=
  chunk.map (twoNbrhood G)

/-- `is_closed(G, nodes)`: `all(v in G_adj[u] for u in setG - nodes for v in nodes)`
— every node outside the set has an edge to every node inside it. -/
def is_closed (G : Graph) (s : Finset ℕ) : Bool :=
  decide (∀ u ∈ setG G \ s, ∀ v ∈ s, v ∈ G.adj u)

/-- `check_closure_subset(chunk)`:
`all(not (s in S and t not in S and is_closed(G, S)) for S in chunk)`. -/
def check_closure_subset (G : Graph) (s t : ℕ) (chunk : List (Finset ℕ)) : Bool :=
  chunk.all (fun S => !(s ∈ S && !(t ∈ S) && is_closed G S))

/-- `is_reachable(G, s, t)`: decides whether there is a path from `s` to `t`
in the tournament `G`.  `ncpus` is the ambient `nxp.cpu_count()` reading. -/
def is_reachable (G : Graph) (s t : ℕ) (ncpus : ℕ) : Bool :=
  let num_in_chunk := max (G.nodes.length / ncpus) 1
  let neighborhoods :=
    (chunks G.nodes num_in_chunk).map (two_nbrhood_subset G)
  let nbrhoods := neighborhoods.flatten
  let results :=
    (chunks nbrhoods num_in_chunk).map (check_closure_subset G s t)
  results.all id

/-- `is_reachable_subset(G, chunk)`:
`all(is_reachable(G, u, v) for v in chunk for u in G)`. -/
def is_reachable_subset (G : Graph) (chunk : List ℕ) (ncpus : ℕ) : Bool :=
  chunk.all (fun v => G.nodes.all (fun u => is_reachable G u v ncpus))

/-- `is_strongly_connected(G)`: decides whether the tournament is strongly
connected, by chunking target nodes and testing reachability from every node
to each target of a chunk. -/
def is_strongly_connected (G : Graph) (ncpus : ℕ) : Bool :=
  let num_in_chunk := max (G.nodes.length / ncpus) 1
  let node_chunks := chunks G.nodes num_in_chunk
  let results := node_chunks.map (fun chunk => is_reachable_subset G chunk ncpus)
  results.all id

/- ----------------------------------------------------------------------
Betweenness centrality (`algorithms/centrality/betweenness.py`).
---------------------------------------------------------------------- -/

/-- State of the breadth-first shortest-path traversal: discovery order `S`,
predecessor lists `P`, path counts `sigma`, distances `D` (`none` = not yet
discovered), and the FIFO queue `Q`. -/
structure BFSState where
  S : List ℕ
  P : ℕ → List ℕ
  sigma : ℕ → ℚ
  D : ℕ → Option ℕ
  Q : List ℕ

/-- Processing of one neighbor `w` of the dequeued node `v` (at distance `Dv`
with path count `sigmav`): first discovery enqueues `w` at distance `Dv + 1`;
whenever `w` sits at distance `Dv + 1`, `v`'s paths flow into it and `v`
becomes a predecessor. -/
def bfsVisit (v : ℕ) (Dv : ℕ) (sigmav : ℚ) (st : BFSState) (w : ℕ) : BFSState :=
  let st :=
    if (st.D w).isNone then
      { st with Q := st.Q ++ [w],
                D := fun x => if x = w then some (Dv + 1) else st.D x }
    else st
  if st.D w = some (Dv + 1) then
    { st with sigma := fun x => if x = w then st.sigma x + sigmav else st.sigma x,
              P := fun x => if x = w then st.P x ++ [v] else st.P x }
  else st

/-- The BFS `while Q:` loop, fuelled; each iteration dequeues one node,
appends it to the discovery order and visits its neighbors. -/
def bfsLoop (G : Graph) : ℕ → BFSState → BFSState
  | 0, st => st
  | fuel + 1, st =>
    match st.Q with
    | [] => st
    | v :: Qrest =>
      let Dv := (st.D v).getD 0
      let sigmav := st.sigma v
      let st0 : BFSState := { st with S := st.S ++ [v], Q := Qrest }
      bfsLoop G fuel ((G.adj v).foldl (bfsVisit v Dv sigmav) st0)

/-- Modelled from the spec (§4.4 ShortestPathEngine, unweighted; the source
delegates to networkx `_single_source_shortest_path_basic`, which is not under
`src/`): breadth-first traversal from `s` producing predecessor lists, path
counts and nodes in non-decreasing distance order.  The fuel dominates the
number of dequeues (at most one enqueue per graph node plus the source). -/
def _single_source_shortest_path_basic (G : Graph) (s : ℕ) :
    List ℕ × (ℕ → List ℕ) × (ℕ → ℚ) :=
  let init : BFSState :=
    { S := [], P := fun _ => [],
      sigma := fun v => if v = s then 1 else 0,
      D := fun v => if v = s then some 0 else none,
      Q := [s] }
  let fin := bfsLoop G (G.nodes.length + 1) init
  (fin.S, fin.P, fin.sigma)

/-- State of the weighted (Dijkstra-style) traversal: finalized order `S`,
predecessor lists `P`, path counts `sigma`, finalized distances `D`,
tentative distances `seen`, and the list `Q` of discovered, not yet
finalized nodes in first-discovery order. -/
structure DijkState where
  S : List ℕ
  P : ℕ → List ℕ
  sigma : ℕ → ℚ
  D : ℕ → Option ℚ
  seen : ℕ → Option ℚ
  Q : List ℕ

/-- Extract a node of minimal tentative distance from the discovered list,
ties broken by first-discovered order, returning it and the remaining list. -/
def popMin (seen : ℕ → Option ℚ) : List ℕ → Option (ℕ × List ℕ)
  | [] => none
  | v :: rest =>
    match popMin seen rest with
    | none => some (v, rest)
    | some (u, rest') =>
      if (seen v).getD 0 ≤ (seen u).getD 0 then some (v, rest)
      else (u, v :: rest') |> some

/-- Relaxation of the edge `v → w` where `v` was just finalized at distance
`dv`: a strictly better tentative distance resets `w`'s paths and
predecessors to come through `v`; an equal one accumulates `v`'s paths and
appends `v` as a predecessor; finalized targets are left untouched. -/
def dijkRelax (G : Graph) (v : ℕ) (dv : ℚ) (st : DijkState) (w : ℕ) : DijkState :=
  let vw := dv + G.wt v w
  if (st.D w).isSome then st
  else
    match st.seen w with
    | none =>
      { st with seen := fun x => if x = w then some vw else st.seen x,
                sigma := fun x => if x = w then st.sigma v else st.sigma x,
                P := fun x => if x = w then [v] else st.P x,
                Q := st.Q ++ [w] }
    | some sw =>
      if vw < sw then
        { st with seen := fun x => if x = w then some vw else st.seen x,
                  sigma := fun x => if x = w then st.sigma v else st.sigma x,
                  P := fun x => if x = w then [v] else st.P x }
      else if vw = sw then
        { st with sigma := fun x => if x = w then st.sigma x + st.sigma v else st.sigma x,
                  P := fun x => if x = w then st.P x ++ [v] else st.P x }
      else st

/-- The Dijkstra loop, fuelled; each iteration finalizes one minimal
discovered node and relaxes its out-edges. -/
def dijkLoop (G : Graph) : ℕ → DijkState → DijkState
  | 0, st => st
  | fuel + 1, st =>
    match popMin st.seen st.Q with
    | none => st
    | some (v, Qrest) =>
      let dv := (st.seen v).getD 0
      let st0 : DijkState :=
        { st with S := st.S ++ [v],
                  D := fun x => if x = v then some dv else st.D x,
                  Q := Qrest }
      dijkLoop G fuel ((G.adj v).foldl (fun st w => dijkRelax G v dv st w) st0)

/-- Modelled from the spec (§4.4 ShortestPathEngine, weighted; the source
delegates to networkx `_single_source_dijkstra_path_basic`, which is not
under `src/`): a priority-queue traversal using the configured edge weight,
producing predecessor lists, path counts and nodes in finalization order,
ties broken by first-discovered order, sigma accumulating multiplicities on
equal-length paths. -/
def _single_source_dijkstra_path_basic (G : Graph) (s : ℕ) :
    List ℕ × (ℕ → List ℕ) × (ℕ → ℚ) :=
  let init : DijkState :=
    { S := [], P := fun _ => [],
      sigma := fun v => if v = s then 1 else 0,
      D := fun _ => none,
      seen := fun v => if v = s then some 0 else none,
      Q := [s] }
  let fin := dijkLoop G (G.nodes.length + 1) init
  (fin.S, fin.P, fin.sigma)

/-- One step of the dependency back-propagation: compute the coefficient of
the popped node `w` and push `sigma[v] * coeff` onto every predecessor `v`. -/
def deltaPush (P : ℕ → List ℕ) (sigma : ℕ → ℚ) (delta : ℕ → ℚ) (w : ℕ) : ℕ → ℚ :=
  let coeff := (1 + delta w) / sigma w
  (P w).foldl (fun d v => fun x => if x = v then d x + sigma v * coeff else d x) delta

/-- One iteration of the basic accumulation loop on the state
(betweenness map, dependency map). -/
def accStepB (P : ℕ → List ℕ) (sigma : ℕ → ℚ) (s : ℕ)
    (st : ScoreMap × (ℕ → ℚ)) (w : ℕ) : ScoreMap × (ℕ → ℚ) :=
  let delta := deltaPush P sigma st.2 w
  (if w = s then st.1 else dincr st.1 w (delta w), delta)

/-- One iteration of the endpoints accumulation loop. -/
def accStepE (P : ℕ → List ℕ) (sigma : ℕ → ℚ) (s : ℕ)
    (st : ScoreMap × (ℕ → ℚ)) (w : ℕ) : ScoreMap × (ℕ → ℚ) :=
  let delta := deltaPush P sigma st.2 w
  (if w = s then st.1 else dincr st.1 w (delta w + 1), delta)

/-- Modelled from the spec (§4.5 AccumulationReducer, basic variant; the
source delegates to networkx `_accumulate_basic`, which is not under `src/`):
walk nodes in reverse discovery order, push each node's dependency to its
predecessors, and add the dependency of every node other than the source to
the running betweenness map. -/
def _accumulate_basic (betweenness : ScoreMap) (S : List ℕ) (P : ℕ → List ℕ)
    (sigma : ℕ → ℚ) (s : ℕ) : ScoreMap × (ℕ → ℚ) :=
  S.reverse.foldl (accStepB P sigma s) (betweenness, fun _ => 0)

/-- Modelled from the spec (§4.5 AccumulationReducer, endpoints variant; the
source delegates to networkx `_accumulate_endpoints`, which is not under
`src/`): additionally credits the source with the number of other reached
nodes and every other reached node with one endpoint contribution. -/
def _accumulate_endpoints (betweenness : ScoreMap) (S : List ℕ) (P : ℕ → List ℕ)
    (sigma : ℕ → ℚ) (s : ℕ) : ScoreMap × (ℕ → ℚ) :=
  S.reverse.foldl (accStepE P sigma s) (dincr betweenness s ((S.length : ℚ) - 1), fun _ => 0)

/-- Modelled from the spec (§4.6 Rescaler; the source delegates to networkx
`_rescale`, which is not under `src/`): divide by `(n-1)(n-2)` when
normalized without endpoints (by `n(n-1)` with endpoints), halve for
non-normalized undirected graphs, and apply the `n/k` sampling correction. -/
def _rescale (betweenness : ScoreMap) (n : ℕ) (normalized : Bool)
    (directed : Bool) (k : Option ℕ) (endpoints : Bool) : ScoreMap :=
  let scaleOpt : Option ℚ :=
    if normalized then
      if endpoints then
        if n < 2 then none else some (1 / ((n : ℚ) * ((n : ℚ) - 1)))
      else if n ≤ 2 then none
      else some (1 / (((n : ℚ) - 1) * ((n : ℚ) - 2)))
    else
      if !directed then some (1 / 2) else none
  match scaleOpt with
  | none => betweenness
  | some scale =>
    let scale :=
      match k with
      | none => scale
      | some kv => scale * (n : ℚ) / (kv : ℚ)
    betweenness.map (fun p => (p.1, p.2 * scale))

/-- The body of the per-source loop of `_betweenness_centrality_node_subset`:
run the shortest-path engine for the source `s` (BFS when no weight
attribute is configured, Dijkstra otherwise) and fold the accumulation into
the running betweenness map. -/
def bcStep (G : Graph) (weight endpoints : Bool) (betweenness : ScoreMap) (s : ℕ) : ScoreMap :=
  let spd :=
    if weight then _single_source_dijkstra_path_basic G s
    else _single_source_shortest_path_basic G s
  if endpoints then (_accumulate_endpoints betweenness spd.1 spd.2.1 spd.2.2 s).1
  else (_accumulate_basic betweenness spd.1 spd.2.1 spd.2.2 s).1

/-- `_betweenness_centrality_node_subset(G, nodes, weight, endpoints)`: a
chunk-local betweenness map, zero-initialized for every graph node, built
by running the shortest-path engine and the accumulation for each source of
the chunk.  `weight = true` embeds a configured edge-weight attribute. -/
def _betweenness_centrality_node_subset (G : Graph) (nodes : List ℕ)
    (weight : Bool) (endpoints : Bool) : ScoreMap :=
  nodes.foldl (bcStep G weight endpoints) (G.nodes.map (fun v => (v, (0 : ℚ))))

/-- Modelled from the spec (§4.7 and §9: `k` nodes sampled without
replacement by an explicit deterministic seeded sampler — same seed, same
sample; a sample size exceeding the population is a caller error, surfaced
eagerly as `random.sample`'s `ValueError`, spec §8 scenario 4). -/
def sampleSeed (seed : ℕ) (l : List ℕ) (k : ℕ) : Except Err (List ℕ) :=
  if l.length < k then .error .invalidParameter
  else
    let r := seed % (l.length + 1)
    .ok ((l.drop r ++ l.take r).take k)

/-- The sequential reduction of the per-chunk maps:
`bt_c = bt_cs[0]; for bt in bt_cs[1:]: for n in bt: bt_c[n] += bt[n]`. -/
def reducePartial (bt0 : ScoreMap) (rest : List ScoreMap) : ScoreMap :=
  rest.foldl (fun bt_c bt => bt.foldl (fun acc p => dincr acc p.1 p.2) bt_c) bt0

/-- The chunked map/reduce at the heart of `betweenness_centrality`, for a
resolved source list `nodes` and a resolved worker count `cpus`: chunk the
sources, build each chunk's partial map, take `bt_cs[0]` (an `IndexError`
when there is no chunk) and fold the remaining partial maps into it. -/
def bcCore (G : Graph) (weight endpoints : Bool) (nodes : List ℕ) (cpus : ℕ) :
    Except Err ScoreMap :=
  let num_in_chunk := max (nodes.length / cpus) 1
  let node_chunks := chunks nodes num_in_chunk
  let bt_cs :=
    node_chunks.map (fun chunk => _betweenness_centrality_node_subset G chunk weight endpoints)
  match bt_cs with
  | [] => .error .indexError
  | bt0 :: rest => pure (reducePartial bt0 rest)

/-- `betweenness_centrality` up to (excluding) the final `_rescale` call: the
raw accumulated score map after the full reduction, or the error the call
raises (`ValueError` from sampling, `IndexError` from `bt_cs[0]` when there
are no chunks).  `ncpus` is the ambient `os.cpu_count()` reading. -/
def bcRaw (G : Graph) (k : Option ℕ) (weight : Bool) (endpoints : Bool)
    (seed : ℕ) (n_jobs : Int) (ncpus : ℕ) : Except Err ScoreMap := do
  let nodes ←
    match k with
    | none => pure G.nodes
    | some kv => sampleSeed seed G.nodes kv
  bcCore G weight endpoints nodes (cpu_count ncpus n_jobs)

/-- `betweenness_centrality(G, k, normalized, weight, endpoints, seed, n_jobs)`:
the full entry point — sample or take all nodes, chunk, accumulate per chunk,
reduce, rescale. -/
def betweenness_centrality (G : Graph) (k : Option ℕ) (normalized : Bool)
    (weight : Bool) (endpoints : Bool) (seed : ℕ) (n_jobs : Int) (ncpus : ℕ) :
    Except Err ScoreMap := do
  let bt_c ← bcRaw G k weight endpoints seed n_jobs ncpus
  pure (_rescale bt_c G.nodes.length normalized G.directed k endpoints)

/- ----------------------------------------------------------------------
Auxiliary definitions used by the statements: the unchunked neighborhood
list, the spec's own closure wording, decidability instances, and the
concrete graphs of the spec's scenarios.
---------------------------------------------------------------------- -/

/-- The two-hop neighborhoods of all nodes, unchunked. -/
def nbrhoodsAll (G : Graph) : List (Finset ℕ) :=
  G.nodes.map (twoNbrhood G)

instance {ε α : Type} [DecidableEq ε] [DecidableEq α] : DecidableEq (Except ε α) := fun x y =>
  match x, y with
  | .error a, .error b =>
    if h : a = b then .isTrue (h ▸ rfl) else .isFalse (fun hc => by cases hc; exact h rfl)
  | .ok a, .ok b =>
    if h : a = b then .isTrue (h ▸ rfl) else .isFalse (fun hc => by cases hc; exact h rfl)
  | .error _, .ok _ => .isFalse (fun hc => by cases hc)
  | .ok _, .error _ => .isFalse (fun hc => by cases hc)

/-- The spec's own wording of closure ("no edge from outside S into S"),
written for comparison with the source's `is_closed`, which instead demands
that every outside node has an edge into every inside node. -/
def spec_closed (G : Graph) (S : Finset ℕ) : Prop :=
  ∀ u ∈ setG G \ S, ∀ v ∈ S, v ∉ G.adj u

instance (G : Graph) (S : Finset ℕ) : Decidable (spec_closed G S) := by
  unfold spec_closed; infer_instance

/-- The spec's scenario-2 tournament, with networkx's node order:
edges (1,0), (1,3), (1,2), (2,3), (2,0), (3,0). -/
def Gscenario2 : Graph :=
  mkGraph [1, 0, 3, 2] [(1, [0, 3, 2]), (2, [3, 0]), (3, [0])]
    true (fun _ _ => 1) (by decide) (by decide) (by decide)

/-- An undirected three-node path `0 — 1 — 2` with unit weights. -/
def Gpath3 : Graph :=
  mkGraph [0, 1, 2] [(0, [1]), (1, [0, 2]), (2, [1])]
    false (fun _ _ => 1) (by decide) (by decide) (by decide)

/-- The empty graph. -/
def Gempty : Graph :=
  mkGraph [] [] false (fun _ _ => 1) (by decide) (by decide) (by decide)

/- ----------------------------------------------------------------------
Path-count closed form and the engine loop invariants used by the score
bound.
---------------------------------------------------------------------- -/

/-- Path-count builder: processing `t` sets its count to the sum, over the
predecessor occurrences `v` of `t`, of 1 when `v` is the source of interest
and of the recorded count of `v` otherwise. -/
def piStep (P : ℕ → List ℕ) (u : ℕ) (g : ℕ → ℚ) (t : ℕ) : ℕ → ℚ :=
  fun x => if x = t then ((P t).map (fun v => if v = u then 1 else g v)).sum else g x

/-- The number of predecessor-DAG paths from `u` to each node, accumulated
along the list `T` in discovery order. -/
def piF (P : ℕ → List ℕ) (u : ℕ) (T : List ℕ) : ℕ → ℚ :=
  T.foldl (piStep P u) (fun _ => 0)

/-- The dependency value the accumulation realizes, in closed form: the sum
over processed nodes `t` of `σ u` times the number of predecessor-DAG paths
from `u` to `t`, divided by `σ t`. -/
def sumD (P : ℕ → List ℕ) (σ : ℕ → ℚ) (T : List ℕ) (u : ℕ) : ℚ :=
  (T.map (fun t => σ u * piF P u T t / σ t)).sum

/-- The inductive invariant of the Dijkstra loop, strong enough to extract
the σ-additivity, positivity and predecessor-ordering facts the dependency
bound consumes.  `s` is the source; populated states (source finalized
first) are closed under the loop. -/
structure DInv (G : Graph) (s : ℕ) (st : DijkState) : Prop where
  nodupS : st.S.Nodup
  memS : ∀ x ∈ st.S, x ∈ G.nodes
  memQ : ∀ x ∈ st.Q, x ∈ G.nodes
  finS : ∀ x, (st.D x).isSome ↔ x ∈ st.S
  disjQ : ∀ x ∈ st.Q, x ∉ st.S
  nodupQ : st.Q.Nodup
  seenSQ : ∀ x, (st.seen x).isSome ↔ (x ∈ st.S ∨ x ∈ st.Q)
  sIn : s ∈ st.S
  sigmaS1 : st.sigma s = 1
  PsNil : st.P s = []
  sposS : ∀ v ∈ st.S, 0 < st.sigma v
  addS : ∀ v ∈ st.S, v ≠ s →
    st.sigma v = ((st.P v).map st.sigma).sum ∧ st.P v ≠ []
  addQ : ∀ q ∈ st.Q, q ≠ s →
    st.sigma q = ((st.P q).map st.sigma).sum ∧ st.P q ≠ [] ∧ ∀ u ∈ st.P q, u ∈ st.S
  predS : ∀ (A B : List ℕ) (w : ℕ), st.S = A ++ w :: B → ∀ u ∈ st.P w, u ∈ A
  headS : ∀ (A B : List ℕ) (w : ℕ), st.S = A ++ w :: B → w ≠ s → s ∈ A

/-- Finalized BFS distance as a plain natural, zero when undiscovered. -/
def dvalB (D : ℕ → Option ℕ) (x : ℕ) : ℕ := (D x).getD 0

/-- The inductive invariant of the BFS loop: besides the bookkeeping shared
with the weighted traversal, discovered nodes carry zeroed-out path data
until first discovery and the discovery order lists nodes by non-decreasing
distance, which protects finalized nodes from later same-level updates. -/
structure BInv (G : Graph) (s : ℕ) (st : BFSState) : Prop where
  nodupS : st.S.Nodup
  memS : ∀ x ∈ st.S, x ∈ G.nodes
  memQ : ∀ x ∈ st.Q, x ∈ G.nodes
  finSQ : ∀ x, (st.D x).isSome ↔ (x ∈ st.S ∨ x ∈ st.Q)
  disjQ : ∀ x ∈ st.Q, x ∉ st.S
  nodupQ : st.Q.Nodup
  sIn : s ∈ st.S
  sigmaS1 : st.sigma s = 1
  PsNil : st.P s = []
  sposS : ∀ v ∈ st.S, 0 < st.sigma v
  zeroOut : ∀ x, st.D x = none → st.sigma x = 0 ∧ st.P x = []
  addS : ∀ v ∈ st.S, v ≠ s →
    st.sigma v = ((st.P v).map st.sigma).sum ∧ st.P v ≠ []
  addQ : ∀ q ∈ st.Q, q ≠ s →
    st.sigma q = ((st.P q).map st.sigma).sum ∧ st.P q ≠ [] ∧ ∀ u ∈ st.P q, u ∈ st.S
  predS : ∀ (A B : List ℕ) (w : ℕ), st.S = A ++ w :: B → ∀ u ∈ st.P w, u ∈ A
  headS : ∀ (A B : List ℕ) (w : ℕ), st.S = A ++ w :: B → w ≠ s → s ∈ A
  pairD : List.Pairwise (fun a b => dvalB st.D a ≤ dvalB st.D b) (st.S ++ st.Q)

/-- The invariant carried through the neighbor fold of one BFS iteration:
the loop invariant plus the facts about the just-dequeued node `v`. -/
structure BFold (G : Graph) (s v : ℕ) (Dv : ℕ) (sigmav : ℚ) (st : BFSState) : Prop where
  inv : BInv G s st
  vS : v ∈ st.S
  vD : st.D v = some Dv
  vsig : st.sigma v = sigmav
  bS : ∀ x ∈ st.S, dvalB st.D x ≤ Dv
  bQ : ∀ q ∈ st.Q, Dv ≤ dvalB st.D q ∧ dvalB st.D q ≤ Dv + 1

/- ----------------------------------------------------------------------
Chunking lemmas: the partitioner drops nothing and duplicates nothing, so
`all`-reductions over chunks equal the reduction over the source sequence.
---------------------------------------------------------------------- -/

lemma chunksFuel_flatten : ∀ (fuel : ℕ) (l : List α) (n : ℕ),
    l.length ≤ fuel → (chunksFuel fuel l (n + 1)).flatten = l
  | fuel, [], _, _ => by cases fuel <;> rfl
  | fuel + 1, a :: l, n, h => by
    rw [chunksFuel, List.flatten_cons,
      chunksFuel_flatten fuel ((a :: l).drop (n + 1)) n
        (by simp only [List.length_drop, List.length_cons]
            simp only [List.length_cons] at h; omega),
      List.take_append_drop]

lemma chunks_flatten (l : List α) (n : ℕ) : (chunks l (n + 1)).flatten = l :=
  chunksFuel_flatten l.length l n le_rfl

lemma all_flatten (L : List (List α)) (p : α → Bool) :
    L.flatten.all p = (L.map (fun c => c.all p)).all id := by
  induction L with
  | nil => rfl
  | cons a L ih => simp only [List.flatten_cons, List.all_append, ih,
      List.map_cons, List.all_cons, id]

/-- `all` over the chunks of a list is `all` over the list. -/
lemma all_chunks (l : List α) (n : ℕ) (p : α → Bool) :
    ((chunks l (n + 1)).map (fun c => c.all p)).all id = l.all p := by
  rw [← all_flatten, chunks_flatten]

/-- The positive chunk sizes the callers produce, in successor form. -/
lemma max_div_one_succ (a b : ℕ) : max (a / b) 1 = (max (a / b) 1 - 1) + 1 := by omega

/- ----------------------------------------------------------------------
Tournament reachability: reduction to the unchunked quantifier.
---------------------------------------------------------------------- -/

/-- The neighborhood-generation stage followed by the closure-checking stage
computes exactly the per-neighborhood check over all two-hop neighborhoods,
independently of the chunking. -/
lemma is_reachable_eq (G : Graph) (s t : ℕ) (ncpus : ℕ) :
    is_reachable G s t ncpus =
      (nbrhoodsAll G).all (fun S => !(s ∈ S && !(t ∈ S) && is_closed G S)) := by
  obtain ⟨m, hm⟩ : ∃ m, max (G.nodes.length / ncpus) 1 = m + 1 :=
    ⟨_, max_div_one_succ _ _⟩
  simp only [is_reachable, hm]
  rw [show two_nbrhood_subset G = List.map (twoNbrhood G) from rfl]
  rw [show ((chunks G.nodes (m + 1)).map (List.map (twoNbrhood G))).flatten
      = nbrhoodsAll G by rw [← List.map_flatten, chunks_flatten]; rfl]
  rw [show check_closure_subset G s t
      = (fun c : List (Finset ℕ) =>
          c.all (fun S => !(s ∈ S && !(t ∈ S) && is_closed G S))) from rfl]
  exact all_chunks _ m _

/-- Membership form of `is_reachable_eq`. -/
lemma is_reachable_iff (G : Graph) (s t : ℕ) (ncpus : ℕ) :
    is_reachable G s t ncpus = true ↔
      ∀ S ∈ G.nodes.map (twoNbrhood G),
        ¬(s ∈ S ∧ t ∉ S ∧ is_closed G S = true) := by
  rw [is_reachable_eq]
  unfold nbrhoodsAll
  rw [List.all_eq_true]
  refine forall_congr' fun S => forall_congr' fun _ => ?_
  simp only [Bool.not_eq_eq_eq_not, Bool.not_true, Bool.and_eq_false_imp,
    Bool.and_eq_true, decide_eq_true_eq, Bool.not_eq_true', decide_eq_false_iff_not]
  constructor
  · rintro h ⟨hs, ht, hc⟩
    rcases h ⟨by simpa using hs, by simpa using ht⟩ with hc'
    exact absurd hc (by simp [hc'])
  · intro h hst
    rcases hst with ⟨hs, ht⟩
    by_contra hc
    exact h ⟨by simpa using hs, by simpa using ht, by simpa using hc⟩

/-- `is_strongly_connected` reduced to the unchunked all-pairs quantifier. -/
lemma is_strongly_connected_iff (G : Graph) (ncpus : ℕ) :
    is_strongly_connected G ncpus = true ↔
      ∀ v ∈ G.nodes, ∀ u ∈ G.nodes, is_reachable G u v ncpus = true := by
  obtain ⟨m, hm⟩ : ∃ m, max (G.nodes.length / ncpus) 1 = m + 1 :=
    ⟨_, max_div_one_succ _ _⟩
  simp only [is_strongly_connected, hm]
  rw [show (fun chunk => is_reachable_subset G chunk ncpus)
      = (fun chunk : List ℕ => chunk.all
          (fun v => G.nodes.all (fun u => is_reachable G u v ncpus))) from rfl]
  rw [all_chunks]
  simp only [List.all_eq_true]

/- ----------------------------------------------------------------------
Dictionary lemmas: lookups, updates, key preservation, extensionality.
---------------------------------------------------------------------- -/

lemma dget_cons (n : ℕ) (q : ℚ) (m : ScoreMap) (x : ℕ) :
    dget ((n, q) :: m) x = if n = x then q else dget m x := by
  by_cases h : n = x
  · subst h; simp [dget, List.find?]
  · have hb : (n == x) = false := by simpa using h
    simp [dget, List.find?, hb, h]

lemma dincr_cons (a1 : ℕ) (a2 : ℚ) (m : ScoreMap) (n : ℕ) (q : ℚ) :
    dincr ((a1, a2) :: m) n q
      = (if a1 = n then (a1, a2 + q) else (a1, a2)) :: dincr m n q := by
  by_cases h : a1 = n <;> simp [dincr, h]

lemma dincr_keys (m : ScoreMap) (x : ℕ) (q : ℚ) :
    (dincr m x q).map Prod.fst = m.map Prod.fst := by
  induction m with
  | nil => rfl
  | cons a m ih =>
    obtain ⟨a1, a2⟩ := a
    rw [dincr_cons]
    by_cases h : a1 = x <;> simp [h, ih]

lemma dget_dincr (m : ScoreMap) (n : ℕ) (q : ℚ) (x : ℕ) :
    dget (dincr m n q) x
      = dget m x + (if x = n ∧ n ∈ m.map Prod.fst then q else 0) := by
  induction m with
  | nil => simp [dget, dincr]
  | cons a m ih =>
    obtain ⟨a1, a2⟩ := a
    rw [dincr_cons]
    by_cases h1 : a1 = n
    · rw [if_pos h1]
      by_cases h2 : a1 = x
      · have hxn : x = n := by rw [← h2, h1]
        rw [dget_cons, if_pos h2, dget_cons, if_pos h2]
        rw [if_pos ⟨hxn, show n ∈ List.map Prod.fst ((a1, a2) :: m) from by
          simpa using Or.inl h1.symm⟩]
      · have hxn : ¬(x = n) := fun hc => h2 (by rw [h1, hc])
        rw [dget_cons, if_neg h2, dget_cons, if_neg h2, ih]
        simp [hxn]
    · rw [if_neg h1]
      by_cases h2 : a1 = x
      · have hxn : ¬(x = n) := fun hc => h1 (by rw [h2, hc])
        rw [dget_cons, if_pos h2, dget_cons, if_pos h2]
        simp [hxn]
      · rw [dget_cons, if_neg h2, dget_cons, if_neg h2, ih]
        have hmem : (x = n ∧ n ∈ List.map Prod.fst ((a1, a2) :: m))
            ↔ (x = n ∧ n ∈ List.map Prod.fst m) := by
          simp only [List.map_cons, List.mem_cons]
          exact ⟨fun ⟨hx, h⟩ => ⟨hx, h.resolve_left fun hc => h1 hc.symm⟩,
            fun ⟨hx, h⟩ => ⟨hx, Or.inr h⟩⟩
        rw [if_congr hmem rfl rfl]

lemma dget_zeroMap (ns : List ℕ) (x : ℕ) :
    dget (ns.map (fun v => (v, (0 : ℚ)))) x = 0 := by
  induction ns with
  | nil => rfl
  | cons a ns ih => by_cases h : a = x <;> simp [dget_cons, h, ih]

lemma zeroMap_keys (ns : List ℕ) :
    (ns.map (fun v => (v, (0 : ℚ)))).map Prod.fst = ns := by
  induction ns with
  | nil => rfl
  | cons a ns ih => simp [ih]

lemma map_keyed : ∀ (m : ScoreMap) (ns : List ℕ), m.map Prod.fst = ns → ns.Nodup →
    m = ns.map (fun v => (v, dget m v))
  | [], ns, hk, _ => by simp [← hk]
  | (a, b) :: m, ns, hk, hnd => by
    obtain ⟨ns', rfl⟩ : ∃ ns', ns = a :: ns' := ⟨m.map Prod.fst, by simp [← hk]⟩
    have hk' : m.map Prod.fst = ns' := by simpa using hk
    have hnd' : ns'.Nodup := hnd.of_cons
    have hna : a ∉ ns' := by
      rcases List.nodup_cons.mp hnd with ⟨h, _⟩
      exact h
    rw [List.map_cons, dget_cons, if_pos rfl]
    refine congrArg (List.cons (a, b)) ?_
    calc m = ns'.map (fun v => (v, dget m v)) := map_keyed m ns' hk' hnd'
      _ = ns'.map (fun v => (v, dget ((a, b) :: m) v)) :=
        List.map_congr_left fun v hv => by
          have : ¬(a = v) := fun hc => hna (hc ▸ hv)
          rw [dget_cons, if_neg this]

/-- Two maps with the same duplicate-free key list and the same lookups are
equal as association lists. -/
lemma alist_ext (ns : List ℕ) (hnd : ns.Nodup) (m1 m2 : ScoreMap)
    (h1 : m1.map Prod.fst = ns) (h2 : m2.map Prod.fst = ns)
    (hv : ∀ x ∈ ns, dget m1 x = dget m2 x) : m1 = m2 := by
  rw [map_keyed m1 ns h1 hnd, map_keyed m2 ns h2 hnd]
  exact List.map_congr_left fun v hv' => by rw [hv v hv']

lemma dget_eq_zero_of_not_mem (m : ScoreMap) (x : ℕ)
    (h : x ∉ m.map Prod.fst) : dget m x = 0 := by
  induction m with
  | nil => rfl
  | cons a m ih =>
    obtain ⟨a1, a2⟩ := a
    rw [dget_cons, if_neg (fun hc => h (by simp [hc]))]
    exact ih fun hc => h (by simp [hc])

/- ----------------------------------------------------------------------
Key preservation through the accumulation pipeline.
---------------------------------------------------------------------- -/

lemma accStepB_keys (P : ℕ → List ℕ) (σ : ℕ → ℚ) (s : ℕ)
    (st : ScoreMap × (ℕ → ℚ)) (w : ℕ) :
    ((accStepB P σ s st w).1).map Prod.fst = (st.1).map Prod.fst := by
  unfold accStepB
  by_cases h : w = s <;> simp [h, dincr_keys]

lemma accStepE_keys (P : ℕ → List ℕ) (σ : ℕ → ℚ) (s : ℕ)
    (st : ScoreMap × (ℕ → ℚ)) (w : ℕ) :
    ((accStepE P σ s st w).1).map Prod.fst = (st.1).map Prod.fst := by
  unfold accStepE
  by_cases h : w = s <;> simp [h, dincr_keys]

lemma foldl_acc_keys {f : ScoreMap × (ℕ → ℚ) → ℕ → ScoreMap × (ℕ → ℚ)}
    (hf : ∀ st w, ((f st w).1).map Prod.fst = (st.1).map Prod.fst) :
    ∀ (L : List ℕ) (st : ScoreMap × (ℕ → ℚ)),
      ((L.foldl f st).1).map Prod.fst = (st.1).map Prod.fst
  | [], _ => rfl
  | w :: L, st => by rw [List.foldl_cons, foldl_acc_keys hf L _, hf]

lemma _accumulate_basic_keys (bt : ScoreMap) (S : List ℕ) (P : ℕ → List ℕ)
    (σ : ℕ → ℚ) (s : ℕ) :
    ((_accumulate_basic bt S P σ s).1).map Prod.fst = bt.map Prod.fst := by
  unfold _accumulate_basic
  exact foldl_acc_keys (accStepB_keys P σ s) _ _

lemma _accumulate_endpoints_keys (bt : ScoreMap) (S : List ℕ) (P : ℕ → List ℕ)
    (σ : ℕ → ℚ) (s : ℕ) :
    ((_accumulate_endpoints bt S P σ s).1).map Prod.fst = bt.map Prod.fst := by
  unfold _accumulate_endpoints
  rw [foldl_acc_keys (accStepE_keys P σ s)]
  exact dincr_keys _ _ _

lemma bcStep_keys (G : Graph) (weight endpoints : Bool) (bt : ScoreMap) (s : ℕ) :
    (bcStep G weight endpoints bt s).map Prod.fst = bt.map Prod.fst := by
  unfold bcStep
  by_cases h : endpoints <;>
    simp [h, _accumulate_basic_keys, _accumulate_endpoints_keys]

lemma foldl_sm_keys {f : ScoreMap → ℕ → ScoreMap}
    (hf : ∀ bt s, (f bt s).map Prod.fst = bt.map Prod.fst) :
    ∀ (L : List ℕ) (bt : ScoreMap), (L.foldl f bt).map Prod.fst = bt.map Prod.fst
  | [], _ => rfl
  | s :: L, bt => by rw [List.foldl_cons, foldl_sm_keys hf L _, hf]

/-- Every per-chunk partial map is keyed by the full node list of the graph,
whatever the chunk. -/
lemma node_subset_keys (G : Graph) (ns : List ℕ) (weight endpoints : Bool) :
    (_betweenness_centrality_node_subset G ns weight endpoints).map Prod.fst = G.nodes := by
  unfold _betweenness_centrality_node_subset
  rw [foldl_sm_keys (bcStep_keys G weight endpoints), zeroMap_keys]

lemma foldl_dincr_keys :
    ∀ (entries : List (ℕ × ℚ)) (acc : ScoreMap),
      (entries.foldl (fun a p => dincr a p.1 p.2) acc).map Prod.fst = acc.map Prod.fst
  | [], _ => rfl
  | e :: es, acc => by rw [List.foldl_cons, foldl_dincr_keys es _, dincr_keys]

lemma reducePartial_keys :
    ∀ (rest : List ScoreMap) (bt0 : ScoreMap),
      (reducePartial bt0 rest).map Prod.fst = bt0.map Prod.fst
  | [], _ => rfl
  | m :: ms, bt0 => by
    show (reducePartial (m.foldl (fun a p => dincr a p.1 p.2) bt0) ms).map Prod.fst = _
    rw [reducePartial_keys ms _, foldl_dincr_keys]

lemma _rescale_keys (bt : ScoreMap) (n : ℕ) (normalized directed : Bool)
    (k : Option ℕ) (endpoints : Bool) :
    (_rescale bt n normalized directed k endpoints).map Prod.fst = bt.map Prod.fst := by
  simp only [_rescale]
  split
  · rfl
  · cases k <;> simp [List.map_map, Function.comp]

/- ----------------------------------------------------------------------
The reduction is element-wise addition.
---------------------------------------------------------------------- -/

lemma foldl_dincr_dget :
    ∀ (entries : List (ℕ × ℚ)) (acc : ScoreMap),
      (entries.map Prod.fst).Nodup →
      (∀ n ∈ entries.map Prod.fst, n ∈ acc.map Prod.fst) →
      ∀ x, dget (entries.foldl (fun a p => dincr a p.1 p.2) acc) x
          = dget acc x + dget entries x
  | [], acc, _, _, x => by simp [dget]
  | (n, q) :: es, acc, hnd, hsub, x => by
    rw [List.foldl_cons]
    have hnd0 : (n :: es.map Prod.fst).Nodup := by simpa using hnd
    obtain ⟨hnmem, hnd'⟩ := List.nodup_cons.mp hnd0
    have hsub' : ∀ a ∈ es.map Prod.fst, a ∈ (dincr acc n q).map Prod.fst := by
      intro a ha
      rw [dincr_keys]
      exact hsub a (by simp [ha])
    rw [foldl_dincr_dget es _ hnd' hsub' x, dget_dincr, dget_cons]
    have hn : n ∈ acc.map Prod.fst := hsub n (by simp)
    by_cases hx : n = x
    · have hes : x ∉ es.map Prod.fst := fun hc => hnmem (hx ▸ hc)
      rw [if_pos hx, if_pos ⟨hx.symm, hn⟩, dget_eq_zero_of_not_mem es x hes]
      ring
    · rw [if_neg hx, if_neg (fun hc => hx hc.1.symm)]
      ring

lemma reducePartial_dget :
    ∀ (rest : List ScoreMap) (bt0 : ScoreMap) (ns : List ℕ),
      ns.Nodup → bt0.map Prod.fst = ns → (∀ m ∈ rest, m.map Prod.fst = ns) →
      ∀ x, dget (reducePartial bt0 rest) x
          = dget bt0 x + (rest.map (fun m => dget m x)).sum
  | [], bt0, ns, _, _, _, x => by simp [reducePartial]
  | m :: ms, bt0, ns, hnd, h0, hr, x => by
    have hm : m.map Prod.fst = ns := hr m (by simp)
    have hstep : dget (m.foldl (fun a p => dincr a p.1 p.2) bt0) x
        = dget bt0 x + dget m x :=
      foldl_dincr_dget m bt0 (hm ▸ hnd) (fun n hn => by rw [h0, ← hm]; exact hn) x
    show dget (reducePartial (m.foldl (fun a p => dincr a p.1 p.2) bt0) ms) x = _
    rw [reducePartial_dget ms _ ns hnd (by rw [foldl_dincr_keys]; exact h0)
        (fun m' hm' => hr m' (by simp [hm'])) x, hstep]
    simp only [List.map_cons, List.sum_cons]
    ring

/- ----------------------------------------------------------------------
Additivity: each source contributes a fixed increment to whatever map the
accumulation is folded into, so chunk-local maps sum to the unchunked map.
---------------------------------------------------------------------- -/

lemma foldl_pair_additive
    {f : ScoreMap × (ℕ → ℚ) → ℕ → ScoreMap × (ℕ → ℚ)}
    (hsnd : ∀ bt1 bt2 d w, (f (bt1, d) w).2 = (f (bt2, d) w).2)
    (hkeys : ∀ st w, ((f st w).1).map Prod.fst = (st.1).map Prod.fst)
    (hfst : ∀ bt1 bt2 d w x, bt1.map Prod.fst = bt2.map Prod.fst →
      dget ((f (bt1, d) w).1) x - dget bt1 x
        = dget ((f (bt2, d) w).1) x - dget bt2 x) :
    ∀ (L : List ℕ) (bt1 bt2 : ScoreMap) (d : ℕ → ℚ),
      bt1.map Prod.fst = bt2.map Prod.fst →
      (L.foldl f (bt1, d)).2 = (L.foldl f (bt2, d)).2 ∧
        ∀ x, dget ((L.foldl f (bt1, d)).1) x - dget bt1 x
            = dget ((L.foldl f (bt2, d)).1) x - dget bt2 x
  | [], bt1, bt2, d, _ => ⟨rfl, fun x => by simp⟩
  | w :: L, bt1, bt2, d, hk => by
    rw [List.foldl_cons, List.foldl_cons]
    have h2 : (f (bt1, d) w).2 = (f (bt2, d) w).2 := hsnd bt1 bt2 d w
    have hk' : ((f (bt1, d) w).1).map Prod.fst = ((f (bt2, d) w).1).map Prod.fst := by
      rw [hkeys, hkeys, hk]
    have ih := foldl_pair_additive hsnd hkeys hfst L
      ((f (bt1, d) w).1) ((f (bt2, d) w).1) ((f (bt1, d) w).2) hk'
    rw [show f (bt1, d) w = (((f (bt1, d) w).1), ((f (bt1, d) w).2)) from rfl,
      show f (bt2, d) w = (((f (bt2, d) w).1), ((f (bt2, d) w).2)) from rfl, ← h2]
    exact ⟨ih.1, fun x => by
      have ha := ih.2 x
      have hb := hfst bt1 bt2 d w x hk
      linarith⟩

lemma accStepB_additive (P : ℕ → List ℕ) (σ : ℕ → ℚ) (s : ℕ)
    (bt1 bt2 : ScoreMap) (d : ℕ → ℚ) (w : ℕ) (x : ℕ)
    (hk : bt1.map Prod.fst = bt2.map Prod.fst) :
    dget ((accStepB P σ s (bt1, d) w).1) x - dget bt1 x
      = dget ((accStepB P σ s (bt2, d) w).1) x - dget bt2 x := by
  unfold accStepB
  by_cases h : w = s
  · simp [h]
  · simp only [h, if_false, dget_dincr, hk]
    ring

lemma accStepE_additive (P : ℕ → List ℕ) (σ : ℕ → ℚ) (s : ℕ)
    (bt1 bt2 : ScoreMap) (d : ℕ → ℚ) (w : ℕ) (x : ℕ)
    (hk : bt1.map Prod.fst = bt2.map Prod.fst) :
    dget ((accStepE P σ s (bt1, d) w).1) x - dget bt1 x
      = dget ((accStepE P σ s (bt2, d) w).1) x - dget bt2 x := by
  unfold accStepE
  by_cases h : w = s
  · simp [h]
  · simp only [h, if_false, dget_dincr, hk]
    ring

/-- One source adds the same increment to any two key-compatible running
maps (basic or endpoints accumulation, BFS or Dijkstra engine). -/
lemma bcStep_additive (G : Graph) (weight endpoints : Bool) (s : ℕ)
    (bt1 bt2 : ScoreMap) (x : ℕ)
    (hk : bt1.map Prod.fst = bt2.map Prod.fst) :
    dget (bcStep G weight endpoints bt1 s) x - dget bt1 x
      = dget (bcStep G weight endpoints bt2 s) x - dget bt2 x := by
  unfold bcStep _accumulate_basic _accumulate_endpoints
  by_cases hep : endpoints
  · simp only [hep, if_true]
    set spd := if weight then _single_source_dijkstra_path_basic G s
      else _single_source_shortest_path_basic G s with hspd
    have hik : (dincr bt1 s ((spd.1.length : ℚ) - 1)).map Prod.fst
        = (dincr bt2 s ((spd.1.length : ℚ) - 1)).map Prod.fst := by
      rw [dincr_keys, dincr_keys, hk]
    have hfold := (foldl_pair_additive (fun _ _ _ _ => rfl)
      (accStepE_keys spd.2.1 spd.2.2 s) (accStepE_additive spd.2.1 spd.2.2 s)
      spd.1.reverse _ _ (fun _ => 0) hik).2 x
    have hinc : dget (dincr bt1 s ((spd.1.length : ℚ) - 1)) x - dget bt1 x
        = dget (dincr bt2 s ((spd.1.length : ℚ) - 1)) x - dget bt2 x := by
      rw [dget_dincr, dget_dincr, hk]
      ring
    linarith
  · simp only [hep, Bool.false_eq_true, if_false]
    set spd := if weight then _single_source_dijkstra_path_basic G s
      else _single_source_shortest_path_basic G s with hspd
    have hfold := (foldl_pair_additive (fun _ _ _ _ => rfl)
      (accStepB_keys spd.2.1 spd.2.2 s) (accStepB_additive spd.2.1 spd.2.2 s)
      spd.1.reverse _ _ (fun _ => 0) hk).2 x
    linarith

lemma srcFold_additive (G : Graph) (weight endpoints : Bool) :
    ∀ (srcs : List ℕ) (bt1 bt2 : ScoreMap),
      bt1.map Prod.fst = bt2.map Prod.fst →
      ∀ x, dget (srcs.foldl (bcStep G weight endpoints) bt1) x - dget bt1 x
          = dget (srcs.foldl (bcStep G weight endpoints) bt2) x - dget bt2 x
  | [], _, _, _, _ => by simp
  | s :: srcs, bt1, bt2, hk, x => by
    rw [List.foldl_cons, List.foldl_cons]
    have hk' : (bcStep G weight endpoints bt1 s).map Prod.fst
        = (bcStep G weight endpoints bt2 s).map Prod.fst := by
      rw [bcStep_keys, bcStep_keys, hk]
    have ih := srcFold_additive G weight endpoints srcs _ _ hk' x
    have hb := bcStep_additive G weight endpoints s bt1 bt2 x hk
    linarith

/-- The chunk-local map of a list of sources evaluates, at every key, to the
sum of the single-source maps' values. -/
lemma node_subset_sum (G : Graph) (weight endpoints : Bool) :
    ∀ (srcs : List ℕ) (x : ℕ),
      dget (_betweenness_centrality_node_subset G srcs weight endpoints) x
        = (srcs.map (fun s =>
            dget (_betweenness_centrality_node_subset G [s] weight endpoints) x)).sum
  | [], x => by simp [_betweenness_centrality_node_subset, dget_zeroMap]
  | s :: srcs, x => by
    unfold _betweenness_centrality_node_subset
    rw [List.foldl_cons]
    have hk : (bcStep G weight endpoints (G.nodes.map (fun v => (v, (0 : ℚ)))) s).map Prod.fst
        = (G.nodes.map (fun v => (v, (0 : ℚ)))).map Prod.fst := bcStep_keys _ _ _ _ _
    have hadd := srcFold_additive G weight endpoints srcs
      (bcStep G weight endpoints (G.nodes.map (fun v => (v, (0 : ℚ)))) s)
      (G.nodes.map (fun v => (v, (0 : ℚ)))) hk x
    have ih := node_subset_sum G weight endpoints srcs x
    unfold _betweenness_centrality_node_subset at ih
    simp only [List.map_cons, List.sum_cons]
    rw [show List.foldl (bcStep G weight endpoints)
          (G.nodes.map (fun v => (v, (0 : ℚ)))) [s]
        = bcStep G weight endpoints (G.nodes.map (fun v => (v, (0 : ℚ)))) s from rfl]
    have hz : dget (G.nodes.map (fun v => (v, (0 : ℚ)))) x = 0 := dget_zeroMap _ _
    linarith

/- ----------------------------------------------------------------------
The chunked map/reduce equals the unchunked computation.
---------------------------------------------------------------------- -/

lemma chunks_nil (n : ℕ) : chunks ([] : List α) n = [] := by
  cases n <;> rfl

lemma chunks_ne_nil (l : List α) (m : ℕ) (h : l ≠ []) : chunks l (m + 1) ≠ [] := by
  intro hc
  apply h
  rw [← chunks_flatten l m, hc]
  rfl

lemma chunked_contrib_sum (G : Graph) (weight endpoints : Bool) :
    ∀ (cs : List (List ℕ)) (x : ℕ),
      (cs.map (fun c =>
        dget (_betweenness_centrality_node_subset G c weight endpoints) x)).sum
      = (cs.flatten.map (fun s =>
          dget (_betweenness_centrality_node_subset G [s] weight endpoints) x)).sum
  | [], _ => rfl
  | c :: cs, x => by
    rw [List.map_cons, List.sum_cons, List.flatten_cons, List.map_append,
      List.sum_append, node_subset_sum, chunked_contrib_sum G weight endpoints cs x]

/-- For a nonempty resolved source list, the map/reduce succeeds; its result
is keyed by the graph's nodes and holds, at each key, the sum of the
single-source contributions over all sources — whatever the worker count. -/
lemma bcCore_ok (G : Graph) (weight endpoints : Bool) (ns : List ℕ) (cpus : ℕ)
    (hne : ns ≠ []) :
    ∃ m : ScoreMap, bcCore G weight endpoints ns cpus = .ok m ∧
      m.map Prod.fst = G.nodes ∧
      ∀ x, dget m x = (ns.map (fun s =>
        dget (_betweenness_centrality_node_subset G [s] weight endpoints) x)).sum := by
  obtain ⟨mm, hmm⟩ : ∃ mm, max (ns.length / cpus) 1 = mm + 1 :=
    ⟨_, max_div_one_succ _ _⟩
  obtain ⟨c0, crest, hcs⟩ : ∃ c0 crest, chunks ns (mm + 1) = c0 :: crest := by
    cases hc : chunks ns (mm + 1) with
    | nil => exact absurd hc (chunks_ne_nil ns mm hne)
    | cons a b => exact ⟨a, b, rfl⟩
  have hflat : (c0 :: crest).flatten = ns := by rw [← hcs, chunks_flatten]
  refine ⟨reducePartial (_betweenness_centrality_node_subset G c0 weight endpoints)
      (crest.map (fun c => _betweenness_centrality_node_subset G c weight endpoints)),
    ?_, ?_, ?_⟩
  · simp only [bcCore, hmm, hcs, List.map_cons]
    rfl
  · rw [reducePartial_keys, node_subset_keys]
  · intro x
    rw [reducePartial_dget _ _ G.nodes G.nodes_nodup (node_subset_keys G c0 _ _)
        (by intro m' hm'
            obtain ⟨c, _, rfl⟩ := List.mem_map.mp hm'
            exact node_subset_keys G c _ _) x]
    have : ((crest.map (fun c =>
          _betweenness_centrality_node_subset G c weight endpoints)).map
            (fun m => dget m x)).sum
        = (crest.map (fun c =>
            dget (_betweenness_centrality_node_subset G c weight endpoints) x)).sum := by
      rw [List.map_map]
      rfl
    rw [this, ← hflat, ← chunked_contrib_sum G weight endpoints (c0 :: crest) x,
      List.map_cons, List.sum_cons]

lemma bcCore_nil (G : Graph) (weight endpoints : Bool) (cpus : ℕ) :
    bcCore G weight endpoints [] cpus = .error .indexError := by
  simp [bcCore, Nat.zero_div, chunks_nil]

/-- The map/reduce result does not depend on the resolved worker count. -/
lemma bcCore_eq (G : Graph) (weight endpoints : Bool) (ns : List ℕ) (c1 c2 : ℕ) :
    bcCore G weight endpoints ns c1 = bcCore G weight endpoints ns c2 := by
  rcases eq_or_ne ns [] with rfl | hne
  · rw [bcCore_nil, bcCore_nil]
  · obtain ⟨m1, hm1, hk1, hv1⟩ := bcCore_ok G weight endpoints ns c1 hne
    obtain ⟨m2, hm2, hk2, hv2⟩ := bcCore_ok G weight endpoints ns c2 hne
    rw [hm1, hm2]
    exact congrArg Except.ok (alist_ext G.nodes G.nodes_nodup m1 m2 hk1 hk2
      (fun x _ => by rw [hv1 x, hv2 x]))

/-- Characterization of a successful `bcRaw` run: the raw map is keyed by the
graph's nodes and is the source-wise sum of single-source contributions over
the resolved (full or sampled) source list. -/
lemma bcRaw_ok (G : Graph) (k : Option ℕ) (weight endpoints : Bool) (seed : ℕ)
    (n_jobs : Int) (ncpus : ℕ) (raw : ScoreMap)
    (h : bcRaw G k weight endpoints seed n_jobs ncpus = .ok raw) :
    raw.map Prod.fst = G.nodes ∧
      ∃ ns : List ℕ, ns ≠ [] ∧
        (match k with
          | none => Except.ok G.nodes
          | some kv => sampleSeed seed G.nodes kv) = Except.ok ns ∧
        ∀ x, dget raw x = (ns.map (fun s =>
          dget (_betweenness_centrality_node_subset G [s] weight endpoints) x)).sum := by
  unfold bcRaw at h
  cases k with
  | none =>
    replace h : bcCore G weight endpoints G.nodes (cpu_count ncpus n_jobs)
        = Except.ok raw := h
    rcases eq_or_ne G.nodes [] with hns | hns
    · rw [show bcCore G weight endpoints G.nodes (cpu_count ncpus n_jobs)
          = .error .indexError from hns ▸ bcCore_nil G weight endpoints _] at h
      exact Except.noConfusion h
    · obtain ⟨m1, hm1, hk1, hv1⟩ := bcCore_ok G weight endpoints G.nodes
        (cpu_count ncpus n_jobs) hns
      rw [hm1] at h
      obtain rfl : m1 = raw := Except.ok.inj h
      exact ⟨hk1, G.nodes, hns, rfl, hv1⟩
  | some kv =>
    replace h : (sampleSeed seed G.nodes kv >>= fun ns =>
        bcCore G weight endpoints ns (cpu_count ncpus n_jobs)) = Except.ok raw := h
    cases hs : sampleSeed seed G.nodes kv with
    | error e =>
      rw [hs] at h
      exact Except.noConfusion h
    | ok ns =>
      rw [hs] at h
      replace h : bcCore G weight endpoints ns (cpu_count ncpus n_jobs)
          = Except.ok raw := h
      rcases eq_or_ne ns [] with rfl | hne
      · rw [bcCore_nil] at h
        exact Except.noConfusion h
      · obtain ⟨m1, hm1, hk1, hv1⟩ := bcCore_ok G weight endpoints ns
          (cpu_count ncpus n_jobs) hne
        rw [hm1] at h
        obtain rfl : m1 = raw := Except.ok.inj h
        exact ⟨hk1, ns, hne, hs, hv1⟩

/- ----------------------------------------------------------------------
Non-negativity: path counts, dependencies and accumulated scores are
non-negative for every graph and every parameter combination.
---------------------------------------------------------------------- -/
lemma foldl_preserve {β : Type} {α : Type} {f : β → α → β} {Q : β → Prop}
    (hf : ∀ b a, Q b → Q (f b a)) : ∀ (l : List α) (b : β), Q b → Q (l.foldl f b)
  | [], _, h => h
  | a :: l, b, h => foldl_preserve hf l (f b a) (hf b a h)

lemma bfsVisit_sigma (v Dv : ℕ) (sigmav : ℚ) (st : BFSState) (w x : ℕ) :
    (bfsVisit v Dv sigmav st w).sigma x = st.sigma x ∨
      (bfsVisit v Dv sigmav st w).sigma x = st.sigma x + sigmav := by
  unfold bfsVisit
  dsimp only
  split
  · split
    · dsimp only
      split
      · right; rfl
      · left; rfl
    · left; rfl
  · split
    · dsimp only
      split
      · right; rfl
      · left; rfl
    · left; rfl

lemma bfsVisit_S (v Dv : ℕ) (sigmav : ℚ) (st : BFSState) (w : ℕ) :
    (bfsVisit v Dv sigmav st w).S = st.S := by
  unfold bfsVisit
  dsimp only
  split <;> split <;> rfl

lemma bfsLoop_sigma_nonneg (G : Graph) :
    ∀ (fuel : ℕ) (st : BFSState), (∀ x, 0 ≤ st.sigma x) →
      ∀ x, 0 ≤ (bfsLoop G fuel st).sigma x
  | 0, st, h => h
  | fuel + 1, st, h => by
    unfold bfsLoop
    cases hq : st.Q with
    | nil => exact h
    | cons v Qrest =>
      apply bfsLoop_sigma_nonneg G fuel
      refine @foldl_preserve _ _ _ (fun st' : BFSState => ∀ x, 0 ≤ st'.sigma x) ?_ (G.adj v) _ ?_
      · intro b a hb x
        rcases bfsVisit_sigma v ((st.D v).getD 0) (st.sigma v) b a x with he | he
        · rw [he]; exact hb x
        · rw [he]; exact add_nonneg (hb x) (h v)
      · exact h

lemma sssp_sigma_nonneg (G : Graph) (s : ℕ) :
    ∀ x, 0 ≤ (_single_source_shortest_path_basic G s).2.2 x := by
  intro x
  unfold _single_source_shortest_path_basic
  apply bfsLoop_sigma_nonneg
  intro y
  dsimp only
  split <;> norm_num

lemma dijkRelax_sigma (G : Graph) (v : ℕ) (dv : ℚ) (st : DijkState) (w x : ℕ) :
    (dijkRelax G v dv st w).sigma x = st.sigma x ∨
      (dijkRelax G v dv st w).sigma x = st.sigma v ∨
      (dijkRelax G v dv st w).sigma x = st.sigma x + st.sigma v := by
  unfold dijkRelax
  dsimp only
  split
  · left; rfl
  · split
    · dsimp only
      split
      · right; left; rfl
      · left; rfl
    · split
      · dsimp only
        split
        · right; left; rfl
        · left; rfl
      · split
        · dsimp only
          split
          · right; right; rfl
          · left; rfl
        · left; rfl

lemma dijkRelax_S (G : Graph) (v : ℕ) (dv : ℚ) (st : DijkState) (w : ℕ) :
    (dijkRelax G v dv st w).S = st.S := by
  unfold dijkRelax
  dsimp only
  split
  · rfl
  · split
    · rfl
    · split
      · rfl
      · split <;> rfl

lemma dijkLoop_sigma_nonneg (G : Graph) :
    ∀ (fuel : ℕ) (st : DijkState), (∀ x, 0 ≤ st.sigma x) →
      ∀ x, 0 ≤ (dijkLoop G fuel st).sigma x
  | 0, st, h => h
  | fuel + 1, st, h => by
    unfold dijkLoop
    cases hq : popMin st.seen st.Q with
    | none => exact h
    | some p =>
      obtain ⟨v, Qrest⟩ := p
      apply dijkLoop_sigma_nonneg G fuel
      refine @foldl_preserve _ _ _ (fun st' : DijkState => ∀ x, 0 ≤ st'.sigma x) ?_ (G.adj v) _ ?_
      · intro b a hb x
        rcases dijkRelax_sigma G v ((st.seen v).getD 0) b a x with he | he | he
        · rw [he]; exact hb x
        · rw [he]; exact hb v
        · rw [he]; exact add_nonneg (hb x) (hb v)
      · exact h

lemma dijk_sigma_nonneg (G : Graph) (s : ℕ) :
    ∀ x, 0 ≤ (_single_source_dijkstra_path_basic G s).2.2 x := by
  intro x
  unfold _single_source_dijkstra_path_basic
  apply dijkLoop_sigma_nonneg
  intro y
  dsimp only
  split <;> norm_num

lemma bfsLoop_S_mono (G : Graph) :
    ∀ (fuel : ℕ) (st : BFSState), st.S.length ≤ (bfsLoop G fuel st).S.length
  | 0, _ => le_rfl
  | fuel + 1, st => by
    unfold bfsLoop
    cases hq : st.Q with
    | nil => exact le_rfl
    | cons v Qrest =>
      have hS : (List.foldl (bfsVisit v ((st.D v).getD 0) (st.sigma v))
          { st with S := st.S ++ [v], Q := Qrest } (G.adj v)).S = st.S ++ [v] := by
        refine @foldl_preserve _ _ _ (fun st' : BFSState => st'.S = st.S ++ [v]) ?_ (G.adj v) _ rfl
        intro b a hb
        rw [bfsVisit_S, hb]
      calc st.S.length ≤ (st.S ++ [v]).length := by simp
        _ ≤ _ := by
          rw [← hS]
          exact bfsLoop_S_mono G fuel _

lemma bfsLoop_S_step (G : Graph) (fuel : ℕ) (st : BFSState) (v : ℕ) (Qrest : List ℕ)
    (hq : st.Q = v :: Qrest) : st.S.length + 1 ≤ (bfsLoop G (fuel + 1) st).S.length := by
  unfold bfsLoop
  rw [hq]
  have hS : (List.foldl (bfsVisit v ((st.D v).getD 0) (st.sigma v))
      { st with S := st.S ++ [v], Q := Qrest } (G.adj v)).S = st.S ++ [v] := by
    refine @foldl_preserve _ _ _ (fun st' : BFSState => st'.S = st.S ++ [v]) ?_ (G.adj v) _ rfl
    intro b a hb
    rw [bfsVisit_S, hb]
  calc st.S.length + 1 = (st.S ++ [v]).length := by simp
    _ ≤ _ := hS ▸ bfsLoop_S_mono G fuel _

lemma sssp_S_ne_nil (G : Graph) (s : ℕ) :
    (_single_source_shortest_path_basic G s).1 ≠ [] := by
  intro hc
  have h := bfsLoop_S_step G G.nodes.length
    { S := [], P := fun _ => [],
      sigma := fun v => if v = s then 1 else 0,
      D := fun v => if v = s then some 0 else none, Q := [s] } s [] rfl
  rw [show (bfsLoop G (G.nodes.length + 1)
      { S := [], P := fun _ => [],
        sigma := fun v => if v = s then 1 else 0,
        D := fun v => if v = s then some 0 else none, Q := [s] }).S
    = (_single_source_shortest_path_basic G s).1 from rfl, hc] at h
  simp at h

lemma dijkLoop_S_mono (G : Graph) :
    ∀ (fuel : ℕ) (st : DijkState), st.S.length ≤ (dijkLoop G fuel st).S.length
  | 0, _ => le_rfl
  | fuel + 1, st => by
    unfold dijkLoop
    cases hq : popMin st.seen st.Q with
    | none => exact le_rfl
    | some p =>
      obtain ⟨v, Qrest⟩ := p
      have hS : (List.foldl (fun st' w => dijkRelax G v ((st.seen v).getD 0) st' w)
          { st with S := st.S ++ [v], D := fun x => if x = v then some ((st.seen v).getD 0) else st.D x, Q := Qrest } (G.adj v)).S = st.S ++ [v] := by
        refine @foldl_preserve _ _ _ (fun st' : DijkState => st'.S = st.S ++ [v]) ?_ (G.adj v) _ rfl
        intro b a hb
        rw [dijkRelax_S, hb]
      calc st.S.length ≤ (st.S ++ [v]).length := by simp
        _ ≤ _ := by
          rw [← hS]
          exact dijkLoop_S_mono G fuel _

lemma dijkLoop_S_step (G : Graph) (fuel : ℕ) (st : DijkState) (v : ℕ) (Qrest : List ℕ)
    (hq : popMin st.seen st.Q = some (v, Qrest)) :
    st.S.length + 1 ≤ (dijkLoop G (fuel + 1) st).S.length := by
  unfold dijkLoop
  rw [hq]
  have hS : (List.foldl (fun st' w => dijkRelax G v ((st.seen v).getD 0) st' w)
      { st with S := st.S ++ [v], D := fun x => if x = v then some ((st.seen v).getD 0) else st.D x, Q := Qrest } (G.adj v)).S = st.S ++ [v] := by
    refine @foldl_preserve _ _ _ (fun st' : DijkState => st'.S = st.S ++ [v]) ?_ (G.adj v) _ rfl
    intro b a hb
    rw [dijkRelax_S, hb]
  calc st.S.length + 1 = (st.S ++ [v]).length := by simp
    _ ≤ _ := hS ▸ dijkLoop_S_mono G fuel _

lemma dijk_S_ne_nil (G : Graph) (s : ℕ) :
    (_single_source_dijkstra_path_basic G s).1 ≠ [] := by
  intro hc
  have h := dijkLoop_S_step G G.nodes.length
    { S := [], P := fun _ => [],
      sigma := fun v => if v = s then 1 else 0,
      D := fun _ => none,
      seen := fun v => if v = s then some 0 else none, Q := [s] } s [] rfl
  rw [show (dijkLoop G (G.nodes.length + 1)
      { S := [], P := fun _ => [],
        sigma := fun v => if v = s then 1 else 0,
        D := fun _ => none,
        seen := fun v => if v = s then some 0 else none, Q := [s] }).S
    = (_single_source_dijkstra_path_basic G s).1 from rfl, hc] at h
  simp at h

lemma accStepB_fst (P : ℕ → List ℕ) (σ : ℕ → ℚ) (s : ℕ)
    (st : ScoreMap × (ℕ → ℚ)) (w : ℕ) :
    (accStepB P σ s st w).1
      = if w = s then st.1 else dincr st.1 w (deltaPush P σ st.2 w w) := rfl

lemma accStepB_snd (P : ℕ → List ℕ) (σ : ℕ → ℚ) (s : ℕ)
    (st : ScoreMap × (ℕ → ℚ)) (w : ℕ) :
    (accStepB P σ s st w).2 = deltaPush P σ st.2 w := rfl

lemma accStepE_fst (P : ℕ → List ℕ) (σ : ℕ → ℚ) (s : ℕ)
    (st : ScoreMap × (ℕ → ℚ)) (w : ℕ) :
    (accStepE P σ s st w).1
      = if w = s then st.1 else dincr st.1 w (deltaPush P σ st.2 w w + 1) := rfl

lemma accStepE_snd (P : ℕ → List ℕ) (σ : ℕ → ℚ) (s : ℕ)
    (st : ScoreMap × (ℕ → ℚ)) (w : ℕ) :
    (accStepE P σ s st w).2 = deltaPush P σ st.2 w := rfl

lemma deltaPush_nonneg (P : ℕ → List ℕ) (σ : ℕ → ℚ) (d : ℕ → ℚ) (w : ℕ)
    (hσ : ∀ x, 0 ≤ σ x) (hd : ∀ x, 0 ≤ d x) : ∀ x, 0 ≤ deltaPush P σ d w x := by
  unfold deltaPush
  refine @foldl_preserve _ _ _ (fun d' : ℕ → ℚ => ∀ x, 0 ≤ d' x) ?_ (P w) d hd
  intro d' v hd' x
  dsimp only
  split
  · refine add_nonneg (hd' x) (mul_nonneg (hσ v) ?_)
    exact div_nonneg (by linarith [hd w]) (hσ w)
  · exact hd' x

lemma dget_le_dincr (m : ScoreMap) (n : ℕ) (q : ℚ) (hq : 0 ≤ q) (x : ℕ) :
    dget m x ≤ dget (dincr m n q) x := by
  rw [dget_dincr]
  split
  · linarith
  · linarith

lemma _accumulate_basic_mono (bt : ScoreMap) (S : List ℕ) (P : ℕ → List ℕ)
    (σ : ℕ → ℚ) (s : ℕ) (hσ : ∀ x, 0 ≤ σ x) :
    ∀ x, dget bt x ≤ dget ((_accumulate_basic bt S P σ s).1) x := by
  unfold _accumulate_basic
  have hstep : ∀ (st : ScoreMap × (ℕ → ℚ)) (w : ℕ),
      ((∀ x, 0 ≤ st.2 x) ∧ ∀ x, dget bt x ≤ dget st.1 x) →
      ((∀ x, 0 ≤ (accStepB P σ s st w).2 x)
        ∧ ∀ x, dget bt x ≤ dget ((accStepB P σ s st w).1) x) := by
    intro st w hst
    have hd' : ∀ x, 0 ≤ deltaPush P σ st.2 w x := deltaPush_nonneg P σ st.2 w hσ hst.1
    refine ⟨by rw [accStepB_snd]; exact hd', fun x => ?_⟩
    rw [accStepB_fst]
    split
    · exact hst.2 x
    · exact le_trans (hst.2 x) (dget_le_dincr _ _ _ (hd' w) x)
  exact (foldl_preserve hstep S.reverse (bt, fun _ => 0)
    ⟨fun _ => le_refl 0, fun _ => le_refl _⟩).2

lemma _accumulate_endpoints_mono (bt : ScoreMap) (S : List ℕ) (P : ℕ → List ℕ)
    (σ : ℕ → ℚ) (s : ℕ) (hσ : ∀ x, 0 ≤ σ x) (hS : S ≠ []) :
    ∀ x, dget bt x ≤ dget ((_accumulate_endpoints bt S P σ s).1) x := by
  unfold _accumulate_endpoints
  have hlen : (0 : ℚ) ≤ (S.length : ℚ) - 1 := by
    have h1 : 1 ≤ S.length := List.length_pos.mpr hS
    have h2 : (1 : ℚ) ≤ (S.length : ℚ) := by exact_mod_cast h1
    linarith
  have hinit : ∀ x, dget bt x ≤ dget (dincr bt s ((S.length : ℚ) - 1)) x :=
    dget_le_dincr _ _ _ hlen
  have hstep : ∀ (st : ScoreMap × (ℕ → ℚ)) (w : ℕ),
      ((∀ x, 0 ≤ st.2 x) ∧ ∀ x, dget bt x ≤ dget st.1 x) →
      ((∀ x, 0 ≤ (accStepE P σ s st w).2 x)
        ∧ ∀ x, dget bt x ≤ dget ((accStepE P σ s st w).1) x) := by
    intro st w hst
    have hd' : ∀ x, 0 ≤ deltaPush P σ st.2 w x := deltaPush_nonneg P σ st.2 w hσ hst.1
    refine ⟨by rw [accStepE_snd]; exact hd', fun x => ?_⟩
    rw [accStepE_fst]
    split
    · exact hst.2 x
    · exact le_trans (hst.2 x) (dget_le_dincr _ _ _ (by linarith [hd' w]) x)
  exact (foldl_preserve hstep S.reverse (dincr bt s ((S.length : ℚ) - 1), fun _ => 0)
    ⟨fun _ => le_refl 0, hinit⟩).2

lemma bcStep_mono (G : Graph) (weight endpoints : Bool) (bt : ScoreMap) (s : ℕ) :
    ∀ x, dget bt x ≤ dget (bcStep G weight endpoints bt s) x := by
  intro x
  unfold bcStep
  by_cases hw : weight <;> by_cases hep : endpoints <;>
    simp only [hw, hep, if_true, if_false, Bool.false_eq_true]
  · exact _accumulate_endpoints_mono bt _ _ _ s (dijk_sigma_nonneg G s) (dijk_S_ne_nil G s) x
  · exact _accumulate_basic_mono bt _ _ _ s (dijk_sigma_nonneg G s) x
  · exact _accumulate_endpoints_mono bt _ _ _ s (sssp_sigma_nonneg G s) (sssp_S_ne_nil G s) x
  · exact _accumulate_basic_mono bt _ _ _ s (sssp_sigma_nonneg G s) x

lemma node_subset_single_nonneg (G : Graph) (weight endpoints : Bool) (s x : ℕ) :
    0 ≤ dget (_betweenness_centrality_node_subset G [s] weight endpoints) x := by
  unfold _betweenness_centrality_node_subset
  rw [show List.foldl (bcStep G weight endpoints)
      (G.nodes.map (fun v => (v, (0 : ℚ)))) [s]
    = bcStep G weight endpoints (G.nodes.map (fun v => (v, (0 : ℚ)))) s from rfl]
  have h := bcStep_mono G weight endpoints (G.nodes.map (fun v => (v, (0 : ℚ)))) s x
  rw [dget_zeroMap] at h
  exact h

lemma raw_values_nonneg (G : Graph) (k : Option ℕ) (weight endpoints : Bool)
    (seed : ℕ) (n_jobs : Int) (ncpus : ℕ) (raw : ScoreMap)
    (h : bcRaw G k weight endpoints seed n_jobs ncpus = .ok raw) :
    ∀ x, 0 ≤ dget raw x := by
  obtain ⟨hk, ns, hne, hsrc, hval⟩ := bcRaw_ok G k weight endpoints seed n_jobs ncpus raw h
  intro x
  rw [hval x]
  apply List.sum_nonneg
  intro q hq
  obtain ⟨s, hs, rfl⟩ := List.mem_map.mp hq
  exact node_subset_single_nonneg G weight endpoints s x

/- ----------------------------------------------------------------------
The dependency bound: the accumulated increment of every key is at most
n - 2 per source, via the path-count closed form of the dependencies and
the loop invariants of both shortest-path engines.
---------------------------------------------------------------------- -/



lemma piFold_unassigned (P : ℕ → List ℕ) (u : ℕ) :
    ∀ (T : List ℕ) (g : ℕ → ℚ) (x : ℕ), x ∉ T → (T.foldl (piStep P u) g) x = g x
  | [], _, _, _ => rfl
  | t :: T, g, x, hx => by
    rw [List.foldl_cons, piFold_unassigned P u T _ x (fun hc => hx (by simp [hc]))]
    unfold piStep
    rw [if_neg (fun hc => hx (by simp [hc]))]

lemma piF_nonneg (P : ℕ → List ℕ) (u : ℕ) :
    ∀ (T : List ℕ) (g : ℕ → ℚ), (∀ x, 0 ≤ g x) →
      ∀ x, 0 ≤ (T.foldl (piStep P u) g) x := by
  intro T
  refine @foldl_preserve _ _ _ (fun g' : ℕ → ℚ => ∀ x, 0 ≤ g' x) ?_ T
  intro g t hg x
  unfold piStep
  split
  · apply List.sum_nonneg
    intro q hq
    obtain ⟨v, hv, rfl⟩ := List.mem_map.mp hq
    split
    · norm_num
    · exact hg v
  · exact hg x

lemma sum_indicator_count (u : ℕ) :
    ∀ (L : List ℕ), ((L.map (fun v => if v = u then (1 : ℚ) else 0)).sum = (L.count u : ℚ))
  | [] => by simp
  | v :: L => by
    rw [List.map_cons, List.sum_cons, sum_indicator_count u L, List.count_cons]
    by_cases h : v = u
    · simp [h, add_comm]
    · have : ¬(u == v) := by simpa using fun hc => h hc.symm
      simp [h, this]

/-- The σ-weighted path-count bound: counts seeded below `σ x / σ u` stay
below it as long as every processed node's σ is the sum of its
predecessors' σ. -/
lemma piFold_bound (P : ℕ → List ℕ) (σ : ℕ → ℚ) (u : ℕ) (hσnn : ∀ x, 0 ≤ σ x) :
    ∀ (T : List ℕ) (g : ℕ → ℚ),
      (∀ t ∈ T, σ t = ((P t).map σ).sum) → u ∉ T →
      (∀ x, 0 ≤ g x ∧ σ u * g x ≤ σ x) →
      ∀ x, 0 ≤ (T.foldl (piStep P u) g) x ∧ σ u * (T.foldl (piStep P u) g) x ≤ σ x
  | [], _, _, _, hg => hg
  | t :: T, g, hadd, hu, hg => by
    rw [List.foldl_cons]
    refine piFold_bound P σ u hσnn T _ (fun t' ht' => hadd t' (by simp [ht']))
      (fun hc => hu (by simp [hc])) ?_
    intro x
    unfold piStep
    by_cases hx : x = t
    · subst hx
      rw [if_pos rfl]
      constructor
      · apply List.sum_nonneg
        intro q hq
        obtain ⟨v, hv, rfl⟩ := List.mem_map.mp hq
        split
        · norm_num
        · exact (hg v).1
      · rw [hadd x (by simp), (List.sum_map_mul_left (P x) _ (σ u)).symm]
        apply List.sum_le_sum
        intro v hv
        by_cases hvu : v = u
        · subst hvu
          simp
        · rw [if_neg hvu]
          exact (hg v).2
    · rw [if_neg hx]
      exact hg x

/-- Linearity of the path-count fold: seeding the count of `w` with `c`
adds `c` times `w`'s own path counts to every later node's count. -/
lemma piFold_linear (P : ℕ → List ℕ) (u w : ℕ) (c : ℚ) :
    ∀ (T : List ℕ) (g1 g2 g3 : ℕ → ℚ),
      w ∉ T → (c ≠ 0 → u ∉ T) → (u = w → c = 0) →
      (∀ x, x ≠ w → g1 x = g2 x + c * g3 x) →
      g1 w = g2 w + c →
      (c ≠ 0 → g3 u = 0) →
      ∀ x, x ≠ w →
        (T.foldl (piStep P u) g1) x
          = (T.foldl (piStep P u) g2) x + c * (T.foldl (piStep P w) g3) x
  | [], g1, g2, g3, _, _, _, hvals, _, _, x, hxw => hvals x hxw
  | t :: T, g1, g2, g3, hw, hu, huw, hvals, hW, hU, x, hxw => by
    rw [List.foldl_cons, List.foldl_cons, List.foldl_cons]
    have htw : t ≠ w := fun hc => hw (by simp [hc])
    have hread : ∀ v, (if v = u then (1 : ℚ) else g1 v)
        = (if v = u then (1 : ℚ) else g2 v) + c * (if v = w then (1 : ℚ) else g3 v) := by
      intro v
      by_cases hvu : v = u
      · subst hvu
        rw [if_pos rfl, if_pos rfl]
        by_cases hvw : v = w
        · rw [if_pos hvw, huw hvw]
          ring
        · rw [if_neg hvw]
          by_cases hc : c = 0
          · rw [hc]
            ring
          · rw [hU hc]
            ring
      · rw [if_neg hvu, if_neg hvu]
        by_cases hvw : v = w
        · subst hvw
          rw [if_pos rfl, hW]
          ring
        · rw [if_neg hvw]
          exact hvals v hvw
    refine piFold_linear P u w c T _ _ _ (fun hc => hw (by simp [hc]))
      (fun hc hin => hu hc (by simp [hin])) huw ?_ ?_ ?_ x hxw
    · intro y hyw
      unfold piStep
      by_cases hyt : y = t
      · rw [if_pos hyt, if_pos hyt, if_pos hyt]
        have : (P t).map (fun v => if v = u then (1 : ℚ) else g1 v)
            = (P t).map (fun v => (if v = u then (1 : ℚ) else g2 v)
                + c * (if v = w then (1 : ℚ) else g3 v)) :=
          List.map_congr_left fun v _ => hread v
        rw [this, List.sum_map_add]
        congr 1
        rw [← List.sum_map_mul_left]
      · rw [if_neg hyt, if_neg hyt, if_neg hyt]
        exact hvals y hyw
    · unfold piStep
      rw [if_neg (fun hc : w = t => htw hc.symm), if_neg (fun hc : w = t => htw hc.symm)]
      exact hW
    · intro hc
      unfold piStep
      have hut : ¬(u = t) := fun he => hu hc (by simp [he])
      rw [if_neg hut]
      exact hU hc

lemma piF_cons_self (P : ℕ → List ℕ) (u w : ℕ) (T : List ℕ) (hw : w ∉ T) :
    piF P u (w :: T) w = ((P w).count u : ℚ) := by
  unfold piF
  rw [List.foldl_cons, piFold_unassigned P u T _ w hw]
  unfold piStep
  rw [if_pos rfl]
  rw [show (P w).map (fun v => if v = u then (1 : ℚ) else (fun _ : ℕ => (0 : ℚ)) v)
      = (P w).map (fun v => if v = u then (1 : ℚ) else 0) from rfl]
  exact sum_indicator_count u (P w)

lemma piF_cons (P : ℕ → List ℕ) (u w : ℕ) (T : List ℕ) (t : ℕ)
    (hw : w ∉ T) (hnp : w ∉ P w) (hord : u ∈ P w → u ∉ T) (ht : t ≠ w) :
    piF P u (w :: T) t = piF P u T t + ((P w).count u : ℚ) * piF P w T t := by
  unfold piF
  rw [List.foldl_cons]
  refine piFold_linear P u w ((P w).count u : ℚ) T _ _ _ hw ?_ ?_ ?_ ?_ ?_ t ht
  · intro hc
    refine hord ?_
    by_contra hmem
    exact hc (by simp [List.count_eq_zero_of_not_mem hmem])
  · intro huw
    subst huw
    simp [List.count_eq_zero_of_not_mem hnp]
  · intro x hxw
    unfold piStep
    rw [if_neg hxw]
    ring
  · unfold piStep
    rw [if_pos rfl]
    rw [show (P w).map (fun v => if v = u then (1 : ℚ) else (fun _ : ℕ => (0 : ℚ)) v)
        = (P w).map (fun v => if v = u then (1 : ℚ) else 0) from rfl]
    rw [sum_indicator_count u (P w)]
    ring
  · intro _
    rfl

lemma foldl_incr_count (σ : ℕ → ℚ) (coeff : ℚ) :
    ∀ (L : List ℕ) (d : ℕ → ℚ) (u : ℕ),
      (L.foldl (fun d v => fun x => if x = v then d x + σ v * coeff else d x) d) u
        = d u + (L.count u : ℚ) * (σ u * coeff)
  | [], d, u => by simp
  | v :: L, d, u => by
    rw [List.foldl_cons, foldl_incr_count σ coeff L _ u]
    by_cases h : u = v
    · subst h
      rw [if_pos rfl, List.count_cons_self]
      push_cast
      ring
    · rw [if_neg h]
      have h' : ¬(v = u) := fun hc => h hc.symm
      have hcnt : (v :: L).count u = L.count u := by
        simp [List.count_cons, h, h']
      rw [hcnt]

lemma deltaPush_eq (P : ℕ → List ℕ) (σ : ℕ → ℚ) (d : ℕ → ℚ) (w u : ℕ) :
    deltaPush P σ d w u
      = d u + ((P w).count u : ℚ) * (σ u * ((1 + d w) / σ w)) := by
  unfold deltaPush
  exact foldl_incr_count σ _ (P w) d u

lemma sumD_cons (P : ℕ → List ℕ) (σ : ℕ → ℚ) (T : List ℕ) (w : ℕ)
    (hw : w ∉ T) (hnp : w ∉ P w) (hord : ∀ u, u ∈ P w → u ∉ T) (hσw : σ w ≠ 0)
    (u : ℕ) :
    sumD P σ (w :: T) u = deltaPush P σ (sumD P σ T) w u := by
  rw [deltaPush_eq]
  unfold sumD
  rw [List.map_cons, List.sum_cons, piF_cons_self P u w T hw]
  have hmap : T.map (fun t => σ u * piF P u (w :: T) t / σ t)
      = T.map (fun t => σ u * piF P u T t / σ t
          + (((P w).count u : ℚ) * σ u / σ w) * (σ w * piF P w T t / σ t)) := by
    refine List.map_congr_left fun t ht => ?_
    have htw : t ≠ w := fun hc => hw (hc ▸ ht)
    rw [piF_cons P u w T t hw hnp (hord u) htw]
    by_cases hst : σ t = 0
    · simp [hst]
    · field_simp
      ring
  rw [hmap, List.sum_map_add, List.sum_map_mul_left]
  field_simp
  ring

lemma sumD_le_length (P : ℕ → List ℕ) (σ : ℕ → ℚ) (T : List ℕ) (w : ℕ)
    (hσnn : ∀ x, 0 ≤ σ x)
    (hadd : ∀ t ∈ T, σ t = ((P t).map σ).sum)
    (hpos : ∀ t ∈ T, 0 < σ t)
    (hw : w ∉ T) :
    sumD P σ T w ≤ (T.length : ℚ) := by
  unfold sumD
  have hbound := piFold_bound P σ w hσnn T (fun _ => 0) hadd hw
    (fun x => ⟨le_refl 0, by rw [mul_zero]; exact hσnn x⟩)
  calc (T.map (fun t => σ w * piF P w T t / σ t)).sum
      ≤ (T.map (fun _ => (1 : ℚ))).sum := by
        refine List.sum_le_sum fun t ht => ?_
        rw [div_le_one (hpos t ht)]
        rw [show piF P w T t = (T.foldl (piStep P w) fun _ => 0) t from rfl]
        exact (hbound t).2
    _ = (T.length : ℚ) := by simp

lemma sumD_nonneg (P : ℕ → List ℕ) (σ : ℕ → ℚ) (T : List ℕ) (u : ℕ)
    (hσnn : ∀ x, 0 ≤ σ x) : 0 ≤ sumD P σ T u := by
  unfold sumD
  apply List.sum_nonneg
  intro q hq
  obtain ⟨t, ht, rfl⟩ := List.mem_map.mp hq
  exact div_nonneg (mul_nonneg (hσnn u)
    (piF_nonneg P u T (fun _ => 0) (fun _ => le_refl 0) t)) (hσnn t)

/-- The central bound: folding the basic accumulation over the unprocessed
list `L` (the processed suffix being `T`) raises each key of the betweenness
map by at most `|S| - 2`, the dependency of each processed node being the
closed-form path-count sum. -/
lemma accFoldB_bound (P : ℕ → List ℕ) (σ : ℕ → ℚ) (s : ℕ) (S : List ℕ)
    (hσnn : ∀ x, 0 ≤ σ x)
    (hnodup : S.Nodup)
    (hpos : ∀ v ∈ S, 0 < σ v)
    (hadd : ∀ v ∈ S, v ≠ s → σ v = ((P v).map σ).sum)
    (hpred : ∀ (A B : List ℕ) (w : ℕ), S = A ++ w :: B → ∀ u ∈ P w, u ∈ A)
    (hhead : ∀ (A B : List ℕ) (w : ℕ), S = A ++ w :: B → w ≠ s → s ∈ A) :
    ∀ (L T : List ℕ) (bt : ScoreMap) (d : ℕ → ℚ),
      S = L.reverse ++ T →
      (∀ u, d u = sumD P σ T u) →
      ∀ x, dget ((L.foldl (accStepB P σ s) (bt, d)).1) x
          ≤ dget bt x + (if x ∈ L ∧ x ≠ s then (S.length : ℚ) - 2 else 0)
  | [], T, bt, d, hS, hd, x => by
    rw [List.foldl_nil]
    simp
  | w :: L', T, bt, d, hS, hd, x => by
    rw [List.foldl_cons]
    have hS' : S = L'.reverse ++ (w :: T) := by
      rw [hS, List.reverse_cons, List.append_assoc]
      rfl
    have hndS := hS' ▸ hnodup
    have hwT : w ∉ T := by
      have := (List.Nodup.of_append_right hndS)
      exact (List.nodup_cons.mp this).1
    have hwrev : w ∉ L'.reverse := by
      intro hc
      exact (List.disjoint_of_nodup_append hndS) hc (by simp)
    have hwS : w ∈ S := by rw [hS']; simp
    have hwP : w ∉ P w := by
      intro hc
      exact hwrev (hpred L'.reverse (w :: T).tail w hS' w hc)
    have hordw : ∀ u ∈ P w, u ∉ T := by
      intro u hu hut
      have huA : u ∈ L'.reverse := hpred L'.reverse T w hS' u hu
      exact (List.disjoint_of_nodup_append hndS) huA (by simp [hut])
    have hσw : σ w ≠ 0 := ne_of_gt (hpos w hwS)
    have hd1 : ∀ u, deltaPush P σ d w u = sumD P σ (w :: T) u := by
      intro u
      rw [sumD_cons P σ T w hwT hwP (fun u' => hordw u') hσw u, deltaPush_eq, deltaPush_eq]
      rw [hd u, hd w]
    have hstep : accStepB P σ s (bt, d) w
        = (if w = s then bt else dincr bt w (deltaPush P σ d w w), deltaPush P σ d w) := rfl
    have hdww : deltaPush P σ d w w = d w := by
      rw [deltaPush_eq, List.count_eq_zero_of_not_mem hwP]
      push_cast
      ring
    have ih := accFoldB_bound P σ s S hσnn hnodup hpos hadd hpred hhead L' (w :: T)
      (if w = s then bt else dincr bt w (deltaPush P σ d w w)) (deltaPush P σ d w)
      hS' hd1 x
    rw [hstep]
    refine le_trans ih ?_
    by_cases hws : w = s
    · rw [if_pos hws]
      by_cases hc : x ∈ L' ∧ x ≠ s
      · rw [if_pos hc, if_pos ⟨List.mem_cons_of_mem _ hc.1, hc.2⟩]
      · rw [if_neg hc, if_neg ?_]
        intro hc2
        refine hc ⟨?_, hc2.2⟩
        rcases List.mem_cons.mp hc2.1 with he | hm
        · exact absurd (he.trans hws) hc2.2
        · exact hm
    · rw [if_neg hws]
      have hsA : s ∈ L'.reverse := hhead L'.reverse T w hS' hws
      have hsT : s ∉ T := by
        intro hc
        exact (List.disjoint_of_nodup_append hndS) hsA (by simp [hc])
      have hTmem : ∀ t ∈ T, t ∈ S ∧ t ≠ s := by
        intro t ht
        refine ⟨by rw [hS']; simp [ht], ?_⟩
        intro hc
        exact hsT (hc ▸ ht)
      have hq_le : sumD P σ T w ≤ (T.length : ℚ) :=
        sumD_le_length P σ T w hσnn
          (fun t ht => hadd t (hTmem t ht).1 (hTmem t ht).2)
          (fun t ht => hpos t (hTmem t ht).1) hwT
    -- length comparison
      have hlenN : T.length + 2 ≤ S.length := by
        have h1 : S.length = L'.reverse.length + (T.length + 1) := by
          rw [hS']
          simp
        have h2 : 1 ≤ L'.reverse.length := List.length_pos.mpr (fun hc => by
          rw [hc] at hsA
          simp at hsA)
        omega
      have hlen : (T.length : ℚ) ≤ (S.length : ℚ) - 2 := by
        have : ((T.length + 2 : ℕ) : ℚ) ≤ ((S.length : ℕ) : ℚ) := by exact_mod_cast hlenN
        push_cast at this
        linarith
      have hq0 : 0 ≤ sumD P σ T w := sumD_nonneg P σ T w hσnn
      have hB0 : (0 : ℚ) ≤ (S.length : ℚ) - 2 := le_trans (by positivity) hlen
      rw [hdww, hd w, dget_dincr]
      by_cases hxw : x = w
      · have hxs : x ≠ s := fun hc => hws (hxw.symm.trans hc)
        have hxL' : x ∉ L' := fun hc => hwrev (by
          rw [← hxw]
          simpa using hc)
        have h1 : (if x ∈ L' ∧ x ≠ s then (S.length : ℚ) - 2 else 0) = 0 :=
          if_neg (fun hc => hxL' hc.1)
        have h2 : (if x ∈ w :: L' ∧ x ≠ s then (S.length : ℚ) - 2 else 0)
            = (S.length : ℚ) - 2 := if_pos ⟨by simp [hxw], hxs⟩
        rw [h1, h2]
        have h3 : (if x = w ∧ w ∈ List.map Prod.fst bt then sumD P σ T w else 0)
            ≤ (S.length : ℚ) - 2 := by
          split
          · exact le_trans hq_le hlen
          · exact hB0
        linarith
      · rw [if_neg (fun hc : x = w ∧ w ∈ List.map Prod.fst bt => hxw hc.1)]
        by_cases hc : x ∈ L' ∧ x ≠ s
        · rw [if_pos hc, if_pos ⟨List.mem_cons_of_mem _ hc.1, hc.2⟩]
          linarith
        · rw [if_neg hc, if_neg ?_]
          · linarith
          · intro hc2
            refine hc ⟨?_, hc2.2⟩
            rcases List.mem_cons.mp hc2.1 with he | hm
            · exact absurd he hxw
            · exact hm

lemma popMin_perm (seen : ℕ → Option ℚ) :
    ∀ (Q : List ℕ) (v : ℕ) (rest : List ℕ),
      popMin seen Q = some (v, rest) → Q.Perm (v :: rest)
  | [], v, rest, h => by simp [popMin] at h
  | q :: Q, v, rest, h => by
    rw [popMin] at h
    cases hrec : popMin seen Q with
    | none =>
      rw [hrec] at h
      obtain ⟨rfl, rfl⟩ : q = v ∧ Q = rest := by simpa using h
      exact List.Perm.refl _
    | some p =>
      obtain ⟨u, rest'⟩ := p
      rw [hrec] at h
      dsimp only at h
      by_cases hle : (seen q).getD 0 ≤ (seen u).getD 0
      · rw [if_pos hle] at h
        obtain ⟨rfl, rfl⟩ : q = v ∧ Q = rest := by simpa using h
        exact List.Perm.refl _
      · rw [if_neg hle] at h
        obtain ⟨rfl, rfl⟩ : u = v ∧ q :: rest' = rest := by simpa using h
        have hperm := popMin_perm seen Q u rest' hrec
        have h1 : (q :: Q).Perm (q :: u :: rest') := hperm.cons q
        have h2 : (q :: u :: rest').Perm (u :: q :: rest') := List.Perm.swap u q rest'
        exact h1.trans h2

lemma DInv.predInS {G : Graph} {s : ℕ} {st : DijkState} (h : DInv G s st) :
    ∀ x ∈ st.S, ∀ u ∈ st.P x, u ∈ st.S := by
  intro x hx u hu
  obtain ⟨A, B, hAB⟩ := List.append_of_mem hx
  have := h.predS A B x hAB u hu
  rw [hAB]
  exact List.mem_append.mpr (Or.inl this)

lemma DInv.qNeS {G : Graph} {s : ℕ} {st : DijkState} (h : DInv G s st) :
    ∀ q ∈ st.Q, q ≠ s := by
  intro q hq hc
  exact h.disjQ q hq (hc ▸ h.sIn)

lemma map_congr_ne (σ σ' : ℕ → ℚ) (L : List ℕ) (w : ℕ) (hw : w ∉ L)
    (h : ∀ x, x ≠ w → σ' x = σ x) : L.map σ' = L.map σ :=
  List.map_congr_left fun x hx => h x (fun hc => hw (hc ▸ hx))

lemma DInv.wNotPS {G : Graph} {s : ℕ} {st : DijkState} (h : DInv G s st)
    {w : ℕ} (hw : w ∉ st.S) : ∀ x ∈ st.S, w ∉ st.P x := by
  intro x hx hc
  exact hw (h.predInS x hx w hc)

lemma DInv.wNotPQ {G : Graph} {s : ℕ} {st : DijkState} (h : DInv G s st)
    {w : ℕ} (hw : w ∉ st.S) : ∀ q ∈ st.Q, w ∉ st.P q := by
  intro q hq hc
  exact hw ((h.addQ q hq (h.qNeS q hq)).2.2 w hc)

/-- First discovery of `w` through `v` preserves the Dijkstra invariant. -/
lemma DInv_push (G : Graph) (s : ℕ) (st : DijkState) (hinv : DInv G s st)
    (v w : ℕ) (vw : ℚ) (hv : v ∈ st.S) (hwS : w ∉ st.S) (hwQ : w ∉ st.Q)
    (hwn : w ∈ G.nodes) :
    DInv G s { st with seen := fun x => if x = w then some vw else st.seen x,
                       sigma := fun x => if x = w then st.sigma v else st.sigma x,
                       P := fun x => if x = w then [v] else st.P x,
                       Q := st.Q ++ [w] } := by
  have hvw : v ≠ w := fun hc => hwS (hc ▸ hv)
  have hsw : ¬(s = w) := fun hc => hwS (hc ▸ hinv.sIn)
  refine ⟨hinv.nodupS, hinv.memS, ?_, hinv.finS, ?_, ?_, ?_, hinv.sIn, ?_, ?_, ?_,
    ?_, ?_, ?_, hinv.headS⟩
  · intro x hx
    rcases List.mem_append.mp hx with hx | hx
    · exact hinv.memQ x hx
    · rw [List.mem_singleton.mp hx]
      exact hwn
  · intro x hx
    rcases List.mem_append.mp hx with hx | hx
    · exact hinv.disjQ x hx
    · rw [List.mem_singleton.mp hx]
      exact hwS
  · exact List.nodup_append.mpr ⟨hinv.nodupQ, List.nodup_singleton w,
      fun a ha hb => hwQ ((List.mem_singleton.mp hb) ▸ ha)⟩
  · intro x
    dsimp only
    by_cases hx : x = w
    · subst hx
      rw [if_pos rfl]
      simp
    · rw [if_neg hx]
      rw [hinv.seenSQ x]
      constructor
      · rintro (h | h)
        · exact Or.inl h
        · exact Or.inr (List.mem_append.mpr (Or.inl h))
      · rintro (h | h)
        · exact Or.inl h
        · rcases List.mem_append.mp h with h | h
          · exact Or.inr h
          · exact absurd (List.mem_singleton.mp h) hx
  · dsimp only
    rw [if_neg hsw]
    exact hinv.sigmaS1
  · dsimp only
    rw [if_neg hsw]
    exact hinv.PsNil
  · intro x hx
    dsimp only
    rw [if_neg (fun hc : x = w => hwS (hc ▸ hx))]
    exact hinv.sposS x hx
  · intro x hx hxs
    dsimp only
    have hxw : ¬(x = w) := fun hc => hwS (hc ▸ hx)
    rw [if_neg hxw]
    obtain ⟨h1, h2⟩ := hinv.addS x hx hxs
    refine ⟨?_, by rw [if_neg hxw]; exact h2⟩
    rw [if_neg hxw, h1]
    congr 1
    refine (map_congr_ne st.sigma _ (st.P x) w (hinv.wNotPS hwS x hx) ?_).symm
    intro y hy
    exact if_neg hy
  · intro q hq hqs
    dsimp only
    rcases List.mem_append.mp hq with hq | hq
    · have hqw : ¬(q = w) := fun hc => hwQ (hc ▸ hq)
      rw [if_neg hqw, if_neg hqw]
      obtain ⟨h1, h2, h3⟩ := hinv.addQ q hq hqs
      refine ⟨?_, h2, fun u hu => h3 u hu⟩
      rw [h1]
      congr 1
      refine (map_congr_ne st.sigma _ (st.P q) w (hinv.wNotPQ hwS q hq) ?_).symm
      intro y hy
      exact if_neg hy
    · rw [List.mem_singleton.mp hq]
      rw [if_pos rfl, if_pos rfl]
      refine ⟨?_, by simp, ?_⟩
      · rw [List.map_singleton, List.sum_singleton, if_neg hvw]
      · intro u hu
        rw [List.mem_singleton.mp hu]
        exact hv
  · intro A B x hAB u hu
    dsimp only at hu ⊢
    have hx : x ∈ st.S := by
      rw [hAB]
      simp
    have hxw : ¬(x = w) := fun hc => hwS (hc ▸ hx)
    rw [if_neg hxw] at hu
    exact hinv.predS A B x hAB u hu

/-- A strictly better tentative distance for the queued `w` resets its paths
to come through `v`, preserving the invariant. -/
lemma DInv_improve (G : Graph) (s : ℕ) (st : DijkState) (hinv : DInv G s st)
    (v w : ℕ) (vw : ℚ) (hv : v ∈ st.S) (hwS : w ∉ st.S) (hwQ : w ∈ st.Q) :
    DInv G s { st with seen := fun x => if x = w then some vw else st.seen x,
                       sigma := fun x => if x = w then st.sigma v else st.sigma x,
                       P := fun x => if x = w then [v] else st.P x } := by
  have hvw : v ≠ w := fun hc => hwS (hc ▸ hv)
  have hsw : ¬(s = w) := fun hc => hwS (hc ▸ hinv.sIn)
  refine ⟨hinv.nodupS, hinv.memS, hinv.memQ, hinv.finS, hinv.disjQ, hinv.nodupQ,
    ?_, hinv.sIn, ?_, ?_, ?_, ?_, ?_, ?_, hinv.headS⟩
  · intro x
    dsimp only
    by_cases hx : x = w
    · subst hx
      rw [if_pos rfl]
      simp [hwQ]
    · rw [if_neg hx]
      exact hinv.seenSQ x
  · dsimp only
    rw [if_neg hsw]
    exact hinv.sigmaS1
  · dsimp only
    rw [if_neg hsw]
    exact hinv.PsNil
  · intro x hx
    dsimp only
    rw [if_neg (fun hc : x = w => hwS (hc ▸ hx))]
    exact hinv.sposS x hx
  · intro x hx hxs
    dsimp only
    have hxw : ¬(x = w) := fun hc => hwS (hc ▸ hx)
    rw [if_neg hxw]
    obtain ⟨h1, h2⟩ := hinv.addS x hx hxs
    refine ⟨?_, by rw [if_neg hxw]; exact h2⟩
    rw [if_neg hxw, h1]
    congr 1
    refine (map_congr_ne st.sigma _ (st.P x) w (hinv.wNotPS hwS x hx) ?_).symm
    intro y hy
    exact if_neg hy
  · intro q hq hqs
    dsimp only
    by_cases hqw : q = w
    · subst hqw
      rw [if_pos rfl, if_pos rfl]
      refine ⟨?_, by simp, ?_⟩
      · rw [List.map_singleton, List.sum_singleton, if_neg hvw]
      · intro u hu
        rw [List.mem_singleton.mp hu]
        exact hv
    · rw [if_neg hqw, if_neg hqw]
      obtain ⟨h1, h2, h3⟩ := hinv.addQ q hq hqs
      refine ⟨?_, h2, fun u hu => h3 u hu⟩
      rw [h1]
      congr 1
      refine (map_congr_ne st.sigma _ (st.P q) w (hinv.wNotPQ hwS q hq) ?_).symm
      intro y hy
      exact if_neg hy
  · intro A B x hAB u hu
    dsimp only at hu ⊢
    have hx : x ∈ st.S := by
      rw [hAB]
      simp
    have hxw : ¬(x = w) := fun hc => hwS (hc ▸ hx)
    rw [if_neg hxw] at hu
    exact hinv.predS A B x hAB u hu

/-- An equal-length path through `v` adds `v`'s paths to the queued `w`,
preserving the invariant. -/
lemma DInv_equal (G : Graph) (s : ℕ) (st : DijkState) (hinv : DInv G s st)
    (v w : ℕ) (hv : v ∈ st.S) (hwS : w ∉ st.S) (hwQ : w ∈ st.Q) :
    DInv G s { st with sigma := fun x => if x = w then st.sigma x + st.sigma v else st.sigma x,
                       P := fun x => if x = w then st.P x ++ [v] else st.P x } := by
  have hvw : v ≠ w := fun hc => hwS (hc ▸ hv)
  have hsw : ¬(s = w) := fun hc => hwS (hc ▸ hinv.sIn)
  refine ⟨hinv.nodupS, hinv.memS, hinv.memQ, hinv.finS, hinv.disjQ, hinv.nodupQ,
    hinv.seenSQ, hinv.sIn, ?_, ?_, ?_, ?_, ?_, ?_, hinv.headS⟩
  · dsimp only
    rw [if_neg hsw]
    exact hinv.sigmaS1
  · dsimp only
    rw [if_neg hsw]
    exact hinv.PsNil
  · intro x hx
    dsimp only
    rw [if_neg (fun hc : x = w => hwS (hc ▸ hx))]
    exact hinv.sposS x hx
  · intro x hx hxs
    dsimp only
    have hxw : ¬(x = w) := fun hc => hwS (hc ▸ hx)
    rw [if_neg hxw]
    obtain ⟨h1, h2⟩ := hinv.addS x hx hxs
    refine ⟨?_, by rw [if_neg hxw]; exact h2⟩
    rw [if_neg hxw, h1]
    congr 1
    refine (map_congr_ne st.sigma _ (st.P x) w (hinv.wNotPS hwS x hx) ?_).symm
    intro y hy
    exact if_neg hy
  · intro q hq hqs
    dsimp only
    by_cases hqw : q = w
    · subst hqw
      rw [if_pos rfl, if_pos rfl]
      obtain ⟨h1, h2, h3⟩ := hinv.addQ q hq hqs
      have hmap : (st.P q).map (fun x => if x = q then st.sigma x + st.sigma v else st.sigma x)
          = (st.P q).map st.sigma := by
        refine map_congr_ne st.sigma _ (st.P q) q (hinv.wNotPQ hwS q hq) ?_
        intro y hy
        exact if_neg hy
      refine ⟨?_, by simp, ?_⟩
      · rw [List.map_append, List.sum_append, hmap, List.map_singleton,
          List.sum_singleton, if_neg hvw, h1]
      · intro u hu
        rcases List.mem_append.mp hu with hu | hu
        · exact h3 u hu
        · rw [List.mem_singleton.mp hu]
          exact hv
    · rw [if_neg hqw, if_neg hqw]
      obtain ⟨h1, h2, h3⟩ := hinv.addQ q hq hqs
      refine ⟨?_, h2, fun u hu => h3 u hu⟩
      rw [h1]
      congr 1
      refine (map_congr_ne st.sigma _ (st.P q) w (hinv.wNotPQ hwS q hq) ?_).symm
      intro y hy
      exact if_neg hy
  · intro A B x hAB u hu
    dsimp only at hu ⊢
    have hx : x ∈ st.S := by
      rw [hAB]
      simp
    have hxw : ¬(x = w) := fun hc => hwS (hc ▸ hx)
    rw [if_neg hxw] at hu
    exact hinv.predS A B x hAB u hu

/-- Relaxation preserves the Dijkstra invariant. -/
lemma dijkRelax_DInv (G : Graph) (s : ℕ) (st : DijkState) (hinv : DInv G s st)
    (v : ℕ) (dv : ℚ) (w : ℕ) (hv : v ∈ st.S) (hwadj : w ∈ G.adj v) :
    DInv G s (dijkRelax G v dv st w) := by
  unfold dijkRelax
  dsimp only
  by_cases hD : (st.D w).isSome
  · rw [if_pos hD]
    exact hinv
  · rw [if_neg hD]
    have hwS : w ∉ st.S := fun hc => hD ((hinv.finS w).mpr hc)
    cases hseen : st.seen w with
    | none =>
      have hwQ : w ∉ st.Q := by
        intro hc
        have : (st.seen w).isSome := (hinv.seenSQ w).mpr (Or.inr hc)
        rw [hseen] at this
        simp at this
      exact DInv_push G s st hinv v w (dv + G.wt v w) hv hwS hwQ (G.adj_mem v w hwadj)
    | some sw =>
      dsimp only
      have hwQ : w ∈ st.Q := by
        have : (st.seen w).isSome := by
          rw [hseen]
          simp
        rcases (hinv.seenSQ w).mp this with h | h
        · exact absurd h hwS
        · exact h
      by_cases h1 : dv + G.wt v w < sw
      · rw [if_pos h1]
        exact DInv_improve G s st hinv v w (dv + G.wt v w) hv hwS hwQ
      · rw [if_neg h1]
        by_cases h2 : dv + G.wt v w = sw
        · rw [if_pos h2]
          exact DInv_equal G s st hinv v w hv hwS hwQ
        · rw [if_neg h2]
          exact hinv

/-- Finalizing the popped minimal node preserves the Dijkstra invariant. -/
lemma DInv_pop (G : Graph) (s : ℕ) (st : DijkState) (hinv : DInv G s st)
    (v : ℕ) (Qrest : List ℕ) (dv : ℚ)
    (hpop : popMin st.seen st.Q = some (v, Qrest)) :
    DInv G s { st with S := st.S ++ [v],
                       D := fun x => if x = v then some dv else st.D x,
                       Q := Qrest } := by
  have hperm : st.Q.Perm (v :: Qrest) := popMin_perm st.seen st.Q v Qrest hpop
  have hndQ' : (v :: Qrest).Nodup := hperm.nodup hinv.nodupQ
  have hvQ : v ∈ st.Q := hperm.mem_iff.mpr (by simp)
  have hrQ : ∀ x ∈ Qrest, x ∈ st.Q := fun x hx => hperm.mem_iff.mpr (by simp [hx])
  have hvR : v ∉ Qrest := (List.nodup_cons.mp hndQ').1
  have hvS : v ∉ st.S := hinv.disjQ v hvQ
  have hvs : v ≠ s := hinv.qNeS v hvQ
  refine ⟨?_, ?_, ?_, ?_, ?_, ?_, ?_, ?_, hinv.sigmaS1, hinv.PsNil, ?_, ?_, ?_, ?_, ?_⟩
  · exact List.Nodup.append hinv.nodupS (List.nodup_singleton v)
      (by intro x hx hx2; rw [List.mem_singleton.mp hx2] at hx; exact hvS hx)
  · intro x hx
    rcases List.mem_append.mp hx with hx | hx
    · exact hinv.memS x hx
    · rw [List.mem_singleton.mp hx]
      exact hinv.memQ v hvQ
  · intro x hx
    exact hinv.memQ x (hrQ x hx)
  · intro x
    dsimp only
    by_cases hx : x = v
    · subst hx
      simp
    · rw [if_neg hx]
      rw [hinv.finS x]
      constructor
      · intro h
        exact List.mem_append.mpr (Or.inl h)
      · intro h
        rcases List.mem_append.mp h with h | h
        · exact h
        · exact absurd (List.mem_singleton.mp h) hx
  · intro x hx
    dsimp only
    intro hc
    rcases List.mem_append.mp hc with hc | hc
    · exact hinv.disjQ x (hrQ x hx) hc
    · rw [List.mem_singleton.mp hc] at hx
      exact hvR hx
  · exact (List.nodup_cons.mp hndQ').2
  · intro x
    dsimp only
    rw [hinv.seenSQ x]
    have hmemQx : x ∈ st.Q ↔ x = v ∨ x ∈ Qrest := by
      rw [hperm.mem_iff]
      simp
    constructor
    · intro h
      rcases h with h | h
      · exact Or.inl (List.mem_append.mpr (Or.inl h))
      · rcases hmemQx.mp h with h | h
        · exact Or.inl (List.mem_append.mpr (Or.inr (by simp [h])))
        · exact Or.inr h
    · intro h
      rcases h with h | h
      · rcases List.mem_append.mp h with h | h
        · exact Or.inl h
        · exact Or.inr (hmemQx.mpr (Or.inl (List.mem_singleton.mp h)))
      · exact Or.inr (hmemQx.mpr (Or.inr h))
  · exact List.mem_append.mpr (Or.inl hinv.sIn)
  · intro x hx
    dsimp only
    rcases List.mem_append.mp hx with hx | hx
    · exact hinv.sposS x hx
    · rw [List.mem_singleton.mp hx]
      obtain ⟨h1, h2, h3⟩ := hinv.addQ v hvQ hvs
      rw [h1]
      refine List.sum_pos _ ?_ (by simpa using h2)
      intro q hq
      obtain ⟨u, hu, rfl⟩ := List.mem_map.mp hq
      exact hinv.sposS u (h3 u hu)
  · intro x hx hxs
    dsimp only
    rcases List.mem_append.mp hx with hx | hx
    · exact hinv.addS x hx hxs
    · rw [List.mem_singleton.mp hx]
      obtain ⟨h1, h2, h3⟩ := hinv.addQ v hvQ hvs
      exact ⟨h1, h2⟩
  · intro q hq hqs
    dsimp only
    obtain ⟨h1, h2, h3⟩ := hinv.addQ q (hrQ q hq) hqs
    exact ⟨h1, h2, fun u hu => List.mem_append.mpr (Or.inl (h3 u hu))⟩
  · intro A B w hAB u hu
    dsimp only at hAB hu
    rcases List.eq_nil_or_concat B with hB | ⟨B', b, hB⟩
    · subst hB
      have hlen : A = st.S ∧ [w] = [v] := by
        refine List.append_inj' ?_ rfl
        rw [← hAB]
      obtain ⟨rfl, hw⟩ := hlen
      have hwv : w = v := by simpa using hw
      subst hwv
      obtain ⟨h1, h2, h3⟩ := hinv.addQ w hvQ hvs
      exact h3 u hu
    · rw [List.concat_eq_append] at hB
      subst hB
      have hAB2 : (A ++ w :: B') ++ [b] = st.S ++ [v] := by
        simp only [List.append_assoc, List.cons_append]
        exact hAB.symm
      have hlen : A ++ w :: B' = st.S ∧ [b] = [v] := List.append_inj' hAB2 rfl
      exact hinv.predS A B' w hlen.1.symm u hu
  · intro A B w hAB hws
    dsimp only at hAB
    rcases List.eq_nil_or_concat B with hB | ⟨B', b, hB⟩
    · subst hB
      have hlen : A = st.S ∧ [w] = [v] := by
        refine List.append_inj' ?_ rfl
        rw [← hAB]
      obtain ⟨rfl, hw⟩ := hlen
      exact hinv.sIn
    · rw [List.concat_eq_append] at hB
      subst hB
      have hAB2 : (A ++ w :: B') ++ [b] = st.S ++ [v] := by
        simp only [List.append_assoc, List.cons_append]
        exact hAB.symm
      have hlen : A ++ w :: B' = st.S ∧ [b] = [v] := List.append_inj' hAB2 rfl
      exact hinv.headS A B' w hlen.1.symm hws

/-- Folding relaxation over out-neighbours of a finalized node preserves the
Dijkstra invariant. -/
lemma dijkRelaxFold_DInv (G : Graph) (s : ℕ) (v : ℕ) (dv : ℚ) :
    ∀ (L : List ℕ) (st : DijkState), DInv G s st → v ∈ st.S →
      (∀ w ∈ L, w ∈ G.adj v) →
      DInv G s (L.foldl (fun st w => dijkRelax G v dv st w) st)
  | [], st, hinv, _, _ => hinv
  | w :: L', st, hinv, hv, hadj => by
    rw [List.foldl_cons]
    refine dijkRelaxFold_DInv G s v dv L' _ ?_ ?_ ?_
    · exact dijkRelax_DInv G s st hinv v dv w hv (hadj w (by simp))
    · rw [dijkRelax_S]
      exact hv
    · intro u hu
      exact hadj u (by simp [hu])

/-- The Dijkstra loop preserves the invariant. -/
lemma dijkLoop_DInv (G : Graph) (s : ℕ) :
    ∀ (fuel : ℕ) (st : DijkState), DInv G s st → DInv G s (dijkLoop G fuel st)
  | 0, st, hinv => hinv
  | fuel + 1, st, hinv => by
    rw [dijkLoop]
    cases hpop : popMin st.seen st.Q with
    | none => exact hinv
    | some p =>
      obtain ⟨v, Qrest⟩ := p
      dsimp only
      have hinv0 := DInv_pop G s st hinv v Qrest ((st.seen v).getD 0) hpop
      have hvQ : v ∈ st.Q := (popMin_perm st.seen st.Q v Qrest hpop).mem_iff.mpr (by simp)
      refine dijkLoop_DInv G s fuel _ ?_
      refine dijkRelaxFold_DInv G s v ((st.seen v).getD 0) (G.adj v) _ hinv0 ?_
        (fun w hw => hw)
      exact List.mem_append.mpr (Or.inr (by simp))

/-- The state right after the source itself is popped and finalized
satisfies the invariant. -/
lemma DInv_start (G : Graph) (s : ℕ) (hs : s ∈ G.nodes) (dv : ℚ) :
    DInv G s { S := [s], P := fun _ => [],
               sigma := fun v => if v = s then 1 else 0,
               D := fun x => if x = s then some dv else none,
               seen := fun v => if v = s then some 0 else none, Q := [] } := by
  refine ⟨List.nodup_singleton s, ?_, ?_, ?_, ?_, List.nodup_nil, ?_, by simp, by simp,
    rfl, ?_, ?_, ?_, ?_, ?_⟩
  · intro x hx
    rw [List.mem_singleton.mp hx]
    exact hs
  · intro x hx
    simp at hx
  · intro x
    dsimp only
    by_cases hx : x = s
    · subst hx
      simp
    · rw [if_neg hx]
      simp [hx]
  · intro x hx
    simp at hx
  · intro x
    dsimp only
    by_cases hx : x = s
    · subst hx
      simp
    · rw [if_neg hx]
      simp [hx]
  · intro x hx
    rw [List.mem_singleton.mp hx]
    simp
  · intro x hx hxs
    exact absurd (List.mem_singleton.mp hx) hxs
  · intro q hq
    simp at hq
  · intro A B w hAB u hu
    simp at hu
  · intro A B w hAB hws
    dsimp only at hAB
    cases A with
    | nil =>
      rw [List.nil_append] at hAB
      injection hAB with h1 h2
      exact absurd h1.symm hws
    | cons a A' =>
      rw [List.cons_append] at hAB
      injection hAB with h1 h2
      simp at h2

/-- The final state of the weighted single-source traversal satisfies the
invariant when the source is a node of the graph. -/
lemma dijk_fin_DInv (G : Graph) (s : ℕ) (hs : s ∈ G.nodes) :
    DInv G s (dijkLoop G (G.nodes.length + 1)
      { S := [], P := fun _ => [],
        sigma := fun v => if v = s then 1 else 0,
        D := fun _ => none,
        seen := fun v => if v = s then some 0 else none, Q := [s] }) := by
  rw [dijkLoop]
  have hpop : popMin (fun v => if v = s then some (0 : ℚ) else none) [s] = some (s, []) := rfl
  rw [hpop]
  dsimp only
  refine dijkLoop_DInv G s _ _ ?_
  refine dijkRelaxFold_DInv G s s _ (G.adj s) _ ?_ (by simp) (fun w hw => hw)
  exact DInv_start G s hs _

lemma BInv.predInSB {G : Graph} {s : ℕ} {st : BFSState} (h : BInv G s st) :
    ∀ x ∈ st.S, ∀ u ∈ st.P x, u ∈ st.S := by
  intro x hx u hu
  obtain ⟨A, B, hAB⟩ := List.append_of_mem hx
  have := h.predS A B x hAB u hu
  rw [hAB]
  exact List.mem_append.mpr (Or.inl this)

lemma BInv.qNeSB {G : Graph} {s : ℕ} {st : BFSState} (h : BInv G s st) :
    ∀ q ∈ st.Q, q ≠ s := by
  intro q hq hc
  exact h.disjQ q hq (hc ▸ h.sIn)

lemma BInv.wNotPSB {G : Graph} {s : ℕ} {st : BFSState} (h : BInv G s st)
    {w : ℕ} (hw : w ∉ st.S) : ∀ x ∈ st.S, w ∉ st.P x := by
  intro x hx hc
  exact hw (h.predInSB x hx w hc)

lemma BInv.wNotPQB {G : Graph} {s : ℕ} {st : BFSState} (h : BInv G s st)
    {w : ℕ} (hw : w ∉ st.S) : ∀ q ∈ st.Q, w ∉ st.P q := by
  intro q hq hc
  exact hw ((h.addQ q hq (h.qNeSB q hq)).2.2 w hc)

/-- First discovery of `w` through the dequeued `v` (distance `Dv`)
preserves the BFS invariant. -/
lemma BInv_push (G : Graph) (s : ℕ) (st : BFSState) (hinv : BInv G s st)
    (v w : ℕ) (Dv : ℕ) (sigmav : ℚ)
    (hv : v ∈ st.S) (hwS : w ∉ st.S) (hwQ : w ∉ st.Q) (hwn : w ∈ G.nodes)
    (hsv : st.sigma v = sigmav)
    (hbS : ∀ x ∈ st.S, dvalB st.D x ≤ Dv)
    (hbQ : ∀ q ∈ st.Q, dvalB st.D q ≤ Dv + 1) :
    BInv G s { st with Q := st.Q ++ [w],
                       D := fun x => if x = w then some (Dv + 1) else st.D x,
                       sigma := fun x => if x = w then st.sigma x + sigmav else st.sigma x,
                       P := fun x => if x = w then st.P x ++ [v] else st.P x } := by
  have hvw : v ≠ w := fun hc => hwS (hc ▸ hv)
  have hsw : ¬(s = w) := fun hc => hwS (hc ▸ hinv.sIn)
  have hD0 : st.D w = none := by
    cases hD : st.D w with
    | none => rfl
    | some d =>
      have : (st.D w).isSome := by rw [hD]; rfl
      rcases (hinv.finSQ w).mp this with h | h
      · exact absurd h hwS
      · exact absurd h hwQ
  obtain ⟨hz, hp⟩ := hinv.zeroOut w hD0
  refine ⟨hinv.nodupS, hinv.memS, ?_, ?_, ?_, ?_, hinv.sIn, ?_, ?_, ?_, ?_, ?_, ?_, ?_, ?_, ?_⟩
  · intro x hx
    rcases List.mem_append.mp hx with hx | hx
    · exact hinv.memQ x hx
    · rw [List.mem_singleton.mp hx]
      exact hwn
  · intro x
    dsimp only
    by_cases hx : x = w
    · subst hx
      simp
    · rw [if_neg hx]
      rw [hinv.finSQ x]
      constructor
      · rintro (h | h)
        · exact Or.inl h
        · exact Or.inr (List.mem_append.mpr (Or.inl h))
      · rintro (h | h)
        · exact Or.inl h
        · rcases List.mem_append.mp h with h | h
          · exact Or.inr h
          · exact absurd (List.mem_singleton.mp h) hx
  · intro x hx
    rcases List.mem_append.mp hx with hx | hx
    · exact hinv.disjQ x hx
    · rw [List.mem_singleton.mp hx]
      exact hwS
  · exact List.Nodup.append hinv.nodupQ (List.nodup_singleton w)
      (by intro x hx hx2; rw [List.mem_singleton.mp hx2] at hx; exact hwQ hx)
  · dsimp only
    rw [if_neg hsw]
    exact hinv.sigmaS1
  · dsimp only
    rw [if_neg hsw]
    exact hinv.PsNil
  · intro x hx
    dsimp only
    rw [if_neg (fun hc : x = w => hwS (hc ▸ hx))]
    exact hinv.sposS x hx
  · intro x hx
    dsimp only at hx ⊢
    by_cases hxw : x = w
    · rw [if_pos hxw] at hx
      simp at hx
    · rw [if_neg hxw] at hx
      rw [if_neg hxw, if_neg hxw]
      exact hinv.zeroOut x hx
  · intro x hx hxs
    dsimp only
    have hxw : ¬(x = w) := fun hc => hwS (hc ▸ hx)
    rw [if_neg hxw]
    obtain ⟨h1, h2⟩ := hinv.addS x hx hxs
    refine ⟨?_, by rw [if_neg hxw]; exact h2⟩
    rw [if_neg hxw, h1]
    congr 1
    refine (map_congr_ne st.sigma _ (st.P x) w (hinv.wNotPSB hwS x hx) ?_).symm
    intro y hy
    exact if_neg hy
  · intro q hq hqs
    dsimp only at hq ⊢
    rcases List.mem_append.mp hq with hq | hq
    · have hqw : ¬(q = w) := fun hc => hwQ (hc ▸ hq)
      rw [if_neg hqw, if_neg hqw]
      obtain ⟨h1, h2, h3⟩ := hinv.addQ q hq hqs
      refine ⟨?_, h2, fun u hu => h3 u hu⟩
      rw [h1]
      congr 1
      refine (map_congr_ne st.sigma _ (st.P q) w (hinv.wNotPQB hwS q hq) ?_).symm
      intro y hy
      exact if_neg hy
    · rw [List.mem_singleton.mp hq]
      rw [if_pos rfl, if_pos rfl, hp, hz]
      refine ⟨?_, by simp, ?_⟩
      · rw [List.nil_append, List.map_singleton, List.sum_singleton, if_neg hvw, hsv,
          zero_add]
      · intro u hu
        rw [List.nil_append] at hu
        rw [List.mem_singleton.mp hu]
        exact hv
  · intro A B x hAB u hu
    dsimp only at hu ⊢
    have hx : x ∈ st.S := by
      rw [hAB]
      simp
    have hxw : ¬(x = w) := fun hc => hwS (hc ▸ hx)
    rw [if_neg hxw] at hu
    exact hinv.predS A B x hAB u hu
  · exact hinv.headS
  · dsimp only
    rw [← List.append_assoc]
    rw [List.pairwise_append]
    have hoff : ∀ x ∈ st.S ++ st.Q,
        dvalB (fun y => if y = w then some (Dv + 1) else st.D y) x = dvalB st.D x := by
      intro x hx
      have hxw : ¬(x = w) := by
        rcases List.mem_append.mp hx with hx | hx
        · exact fun hc => hwS (hc ▸ hx)
        · exact fun hc => hwQ (hc ▸ hx)
      unfold dvalB
      dsimp only
      rw [if_neg hxw]
    have hw' : dvalB (fun y => if y = w then some (Dv + 1) else st.D y) w = Dv + 1 := by
      unfold dvalB
      dsimp only
      rw [if_pos rfl]
      rfl
    refine ⟨?_, List.pairwise_singleton _ _, ?_⟩
    · refine List.Pairwise.imp_of_mem ?_ hinv.pairD
      intro a b ha hb hrel
      rw [hoff a ha, hoff b hb]
      exact hrel
    · intro x hx y hy
      rw [List.mem_singleton.mp hy, hoff x hx, hw']
      rcases List.mem_append.mp hx with hx | hx
      · exact le_trans (hbS x hx) (Nat.le_succ Dv)
      · exact hbQ x hx

/-- A same-level rediscovery of the queued `w` adds `v`'s paths to it,
preserving the BFS invariant. -/
lemma BInv_equal (G : Graph) (s : ℕ) (st : BFSState) (hinv : BInv G s st)
    (v w : ℕ) (sigmav : ℚ)
    (hv : v ∈ st.S) (hwS : w ∉ st.S) (hwQ : w ∈ st.Q)
    (hsv : st.sigma v = sigmav) :
    BInv G s { st with
      sigma := fun x => if x = w then st.sigma x + sigmav else st.sigma x,
      P := fun x => if x = w then st.P x ++ [v] else st.P x } := by
  have hvw : v ≠ w := fun hc => hwS (hc ▸ hv)
  have hsw : ¬(s = w) := fun hc => hwS (hc ▸ hinv.sIn)
  have hDw : (st.D w).isSome := (hinv.finSQ w).mpr (Or.inr hwQ)
  refine ⟨hinv.nodupS, hinv.memS, hinv.memQ, hinv.finSQ, hinv.disjQ, hinv.nodupQ,
    hinv.sIn, ?_, ?_, ?_, ?_, ?_, ?_, ?_, hinv.headS, hinv.pairD⟩
  · dsimp only
    rw [if_neg hsw]
    exact hinv.sigmaS1
  · dsimp only
    rw [if_neg hsw]
    exact hinv.PsNil
  · intro x hx
    dsimp only
    rw [if_neg (fun hc : x = w => hwS (hc ▸ hx))]
    exact hinv.sposS x hx
  · intro x hx
    dsimp only
    have hxw : ¬(x = w) := by
      intro hc
      subst hc
      rw [hx] at hDw
      simp at hDw
    rw [if_neg hxw, if_neg hxw]
    exact hinv.zeroOut x hx
  · intro x hx hxs
    dsimp only
    have hxw : ¬(x = w) := fun hc => hwS (hc ▸ hx)
    rw [if_neg hxw]
    obtain ⟨h1, h2⟩ := hinv.addS x hx hxs
    refine ⟨?_, by rw [if_neg hxw]; exact h2⟩
    rw [if_neg hxw, h1]
    congr 1
    refine (map_congr_ne st.sigma _ (st.P x) w (hinv.wNotPSB hwS x hx) ?_).symm
    intro y hy
    exact if_neg hy
  · intro q hq hqs
    dsimp only
    by_cases hqw : q = w
    · subst hqw
      rw [if_pos rfl, if_pos rfl]
      obtain ⟨h1, h2, h3⟩ := hinv.addQ q hq hqs
      have hmap : (st.P q).map (fun x => if x = q then st.sigma x + sigmav else st.sigma x)
          = (st.P q).map st.sigma := by
        refine map_congr_ne st.sigma _ (st.P q) q (hinv.wNotPQB hwS q hq) ?_
        intro y hy
        exact if_neg hy
      refine ⟨?_, by simp, ?_⟩
      · rw [List.map_append, List.sum_append, hmap, List.map_singleton,
          List.sum_singleton, if_neg hvw, h1, hsv]
      · intro u hu
        rcases List.mem_append.mp hu with hu | hu
        · exact h3 u hu
        · rw [List.mem_singleton.mp hu]
          exact hv
    · rw [if_neg hqw, if_neg hqw]
      obtain ⟨h1, h2, h3⟩ := hinv.addQ q hq hqs
      refine ⟨?_, h2, fun u hu => h3 u hu⟩
      rw [h1]
      congr 1
      refine (map_congr_ne st.sigma _ (st.P q) w (hinv.wNotPQB hwS q hq) ?_).symm
      intro y hy
      exact if_neg hy
  · intro A B x hAB u hu
    dsimp only at hu ⊢
    have hx : x ∈ st.S := by
      rw [hAB]
      simp
    have hxw : ¬(x = w) := fun hc => hwS (hc ▸ hx)
    rw [if_neg hxw] at hu
    exact hinv.predS A B x hAB u hu

/-- Visiting one neighbor preserves the fold invariant. -/
lemma bfsVisit_BFold (G : Graph) (s v : ℕ) (Dv : ℕ) (sigmav : ℚ) (st : BFSState)
    (h : BFold G s v Dv sigmav st) (w : ℕ) (hwn : w ∈ G.nodes) :
    BFold G s v Dv sigmav (bfsVisit v Dv sigmav st w) := by
  unfold bfsVisit
  dsimp only
  by_cases hD : (st.D w).isNone
  · rw [if_pos hD]
    have hwS : w ∉ st.S := by
      intro hc
      have := (h.inv.finSQ w).mpr (Or.inl hc)
      rw [Option.isNone_iff_eq_none.mp hD] at this
      simp at this
    have hwQ : w ∉ st.Q := by
      intro hc
      have := (h.inv.finSQ w).mpr (Or.inr hc)
      rw [Option.isNone_iff_eq_none.mp hD] at this
      simp at this
    have hvw : ¬(v = w) := fun hc => hwS (hc ▸ h.vS)
    dsimp only
    have hcond : (if w = w then some (Dv + 1) else st.D w) = some (Dv + 1) := if_pos rfl
    rw [hcond, if_pos rfl]
    refine ⟨?_, h.vS, ?_, ?_, ?_, ?_⟩
    · exact BInv_push G s st h.inv v w Dv sigmav h.vS hwS hwQ hwn h.vsig h.bS
        (fun q hq => (h.bQ q hq).2)
    · dsimp only
      rw [if_neg hvw]
      exact h.vD
    · dsimp only
      rw [if_neg hvw]
      exact h.vsig
    · intro x hx
      dsimp only at hx ⊢
      have hxw : ¬(x = w) := fun hc => hwS (hc ▸ hx)
      unfold dvalB
      dsimp only
      rw [if_neg hxw]
      exact h.bS x hx
    · intro q hq
      dsimp only at hq ⊢
      unfold dvalB
      dsimp only
      rcases List.mem_append.mp hq with hq | hq
      · have hqw : ¬(q = w) := fun hc => hwQ (hc ▸ hq)
        rw [if_neg hqw]
        exact h.bQ q hq
      · rw [List.mem_singleton.mp hq, if_pos rfl]
        exact ⟨Nat.le_succ Dv, le_refl _⟩
  · rw [if_neg hD]
    by_cases hEq : st.D w = some (Dv + 1)
    · rw [if_pos hEq]
      have hwS : w ∉ st.S := by
        intro hc
        have := h.bS w hc
        unfold dvalB at this
        rw [hEq] at this
        simp at this
      have hwQ : w ∈ st.Q := by
        have hsome : (st.D w).isSome := by rw [hEq]; rfl
        rcases (h.inv.finSQ w).mp hsome with hc | hc
        · exact absurd hc hwS
        · exact hc
      have hvw : ¬(v = w) := fun hc => hwS (hc ▸ h.vS)
      refine ⟨?_, h.vS, h.vD, ?_, h.bS, h.bQ⟩
      · exact BInv_equal G s st h.inv v w sigmav h.vS hwS hwQ h.vsig
      · dsimp only
        rw [if_neg hvw]
        exact h.vsig
    · rw [if_neg hEq]
      exact h

/-- Folding the neighbor visit over a list of graph nodes preserves the
fold invariant. -/
lemma bfsVisitFold_BFold (G : Graph) (s v : ℕ) (Dv : ℕ) (sigmav : ℚ) :
    ∀ (L : List ℕ) (st : BFSState), BFold G s v Dv sigmav st →
      (∀ w ∈ L, w ∈ G.nodes) →
      BFold G s v Dv sigmav (L.foldl (bfsVisit v Dv sigmav) st)
  | [], st, h, _ => h
  | w :: L', st, h, hadj => by
    rw [List.foldl_cons]
    exact bfsVisitFold_BFold G s v Dv sigmav L' _
      (bfsVisit_BFold G s v Dv sigmav st h w (hadj w (by simp)))
      (fun u hu => hadj u (by simp [hu]))

/-- Dequeuing the head of the BFS queue into the finalized order preserves
the loop invariant. -/
lemma BInv_pop (G : Graph) (s : ℕ) (st : BFSState) (hinv : BInv G s st)
    (v : ℕ) (Qrest : List ℕ) (hQ : st.Q = v :: Qrest) :
    BInv G s { st with S := st.S ++ [v], Q := Qrest } := by
  have hvQ : v ∈ st.Q := by rw [hQ]; simp
  have hndQ : (v :: Qrest).Nodup := hQ ▸ hinv.nodupQ
  have hvR : v ∉ Qrest := (List.nodup_cons.mp hndQ).1
  have hrQ : ∀ x ∈ Qrest, x ∈ st.Q := fun x hx => by rw [hQ]; simp [hx]
  have hvS : v ∉ st.S := hinv.disjQ v hvQ
  have hvs : v ≠ s := hinv.qNeSB v hvQ
  refine ⟨?_, ?_, ?_, ?_, ?_, ?_, ?_, hinv.sigmaS1, hinv.PsNil, ?_, hinv.zeroOut,
    ?_, ?_, ?_, ?_, ?_⟩
  · exact List.Nodup.append hinv.nodupS (List.nodup_singleton v)
      (by intro x hx hx2; rw [List.mem_singleton.mp hx2] at hx; exact hvS hx)
  · intro x hx
    rcases List.mem_append.mp hx with hx | hx
    · exact hinv.memS x hx
    · rw [List.mem_singleton.mp hx]
      exact hinv.memQ v hvQ
  · intro x hx
    exact hinv.memQ x (hrQ x hx)
  · intro x
    dsimp only
    rw [hinv.finSQ x]
    constructor
    · rintro (hx | hx)
      · exact Or.inl (List.mem_append.mpr (Or.inl hx))
      · rw [hQ] at hx
        rcases List.mem_cons.mp hx with hx | hx
        · exact Or.inl (List.mem_append.mpr (Or.inr (by simp [hx])))
        · exact Or.inr hx
    · rintro (hx | hx)
      · rcases List.mem_append.mp hx with hx | hx
        · exact Or.inl hx
        · rw [List.mem_singleton.mp hx]
          exact Or.inr hvQ
      · exact Or.inr (hrQ x hx)
  · intro x hx
    intro hc
    rcases List.mem_append.mp hc with hc | hc
    · exact hinv.disjQ x (hrQ x hx) hc
    · rw [List.mem_singleton.mp hc] at hx
      exact hvR hx
  · exact (List.nodup_cons.mp hndQ).2
  · exact List.mem_append.mpr (Or.inl hinv.sIn)
  · intro x hx
    rcases List.mem_append.mp hx with hx | hx
    · exact hinv.sposS x hx
    · rw [List.mem_singleton.mp hx]
      obtain ⟨h1, h2, h3⟩ := hinv.addQ v hvQ hvs
      rw [h1]
      refine List.sum_pos _ ?_ (by simpa using h2)
      intro q hq
      obtain ⟨u, hu, rfl⟩ := List.mem_map.mp hq
      exact hinv.sposS u (h3 u hu)
  · intro x hx hxs
    rcases List.mem_append.mp hx with hx | hx
    · exact hinv.addS x hx hxs
    · rw [List.mem_singleton.mp hx]
      obtain ⟨h1, h2, h3⟩ := hinv.addQ v hvQ hvs
      exact ⟨h1, h2⟩
  · intro q hq hqs
    obtain ⟨h1, h2, h3⟩ := hinv.addQ q (hrQ q hq) hqs
    exact ⟨h1, h2, fun u hu => List.mem_append.mpr (Or.inl (h3 u hu))⟩
  · intro A B w hAB u hu
    dsimp only at hAB hu
    rcases List.eq_nil_or_concat B with hB | ⟨B', b, hB⟩
    · subst hB
      have hlen : A = st.S ∧ [w] = [v] := by
        refine List.append_inj' ?_ rfl
        rw [← hAB]
      obtain ⟨rfl, hw⟩ := hlen
      have hwv : w = v := by simpa using hw
      subst hwv
      obtain ⟨h1, h2, h3⟩ := hinv.addQ w hvQ hvs
      exact h3 u hu
    · rw [List.concat_eq_append] at hB
      subst hB
      have hAB2 : (A ++ w :: B') ++ [b] = st.S ++ [v] := by
        simp only [List.append_assoc, List.cons_append]
        exact hAB.symm
      have hlen : A ++ w :: B' = st.S ∧ [b] = [v] := List.append_inj' hAB2 rfl
      exact hinv.predS A B' w hlen.1.symm u hu
  · intro A B w hAB hws
    dsimp only at hAB
    rcases List.eq_nil_or_concat B with hB | ⟨B', b, hB⟩
    · subst hB
      have hlen : A = st.S ∧ [w] = [v] := by
        refine List.append_inj' ?_ rfl
        rw [← hAB]
      obtain ⟨rfl, hw⟩ := hlen
      exact hinv.sIn
    · rw [List.concat_eq_append] at hB
      subst hB
      have hAB2 : (A ++ w :: B') ++ [b] = st.S ++ [v] := by
        simp only [List.append_assoc, List.cons_append]
        exact hAB.symm
      have hlen : A ++ w :: B' = st.S ∧ [b] = [v] := List.append_inj' hAB2 rfl
      exact hinv.headS A B' w hlen.1.symm hws
  · dsimp only
    have hlist : (st.S ++ [v]) ++ Qrest = st.S ++ st.Q := by
      rw [hQ]
      simp
    exact hlist.symm ▸ hinv.pairD

/-- The BFS loop preserves the invariant, given the distance window of the
previous iteration. -/
lemma bfsLoop_BInv (G : Graph) (s : ℕ) :
    ∀ (fuel : ℕ) (st : BFSState) (D0 : ℕ),
      BInv G s st →
      (∀ x ∈ st.S, dvalB st.D x ≤ D0) →
      (∀ q ∈ st.Q, D0 ≤ dvalB st.D q ∧ dvalB st.D q ≤ D0 + 1) →
      BInv G s (bfsLoop G fuel st)
  | 0, st, D0, hinv, _, _ => hinv
  | fuel + 1, st, D0, hinv, hS0, hQ0 => by
    rw [bfsLoop]
    cases hQ : st.Q with
    | nil => exact hinv
    | cons v Qrest =>
      dsimp only
      have hvQ : v ∈ st.Q := by rw [hQ]; simp
      have hDv : st.D v = some ((st.D v).getD 0) := by
        have : (st.D v).isSome := (hinv.finSQ v).mpr (Or.inr hvQ)
        cases hc : st.D v with
        | none => rw [hc] at this; simp at this
        | some d => rfl
      have hwin := hQ0 v hvQ
      have hpairQ : ∀ q ∈ Qrest, dvalB st.D v ≤ dvalB st.D q := by
        have hp2 := (List.pairwise_append.mp hinv.pairD).2.1
        rw [hQ] at hp2
        exact (List.pairwise_cons.mp hp2).1
      have hfold : BFold G s v ((st.D v).getD 0) (st.sigma v)
          ((G.adj v).foldl (bfsVisit v ((st.D v).getD 0) (st.sigma v))
            { st with S := st.S ++ [v], Q := Qrest }) := by
        refine bfsVisitFold_BFold G s v _ _ (G.adj v) _ ?_
          (fun w hw => G.adj_mem v w hw)
        refine ⟨BInv_pop G s st hinv v Qrest hQ, by simp, hDv, rfl, ?_, ?_⟩
        · intro x hx
          dsimp only at hx ⊢
          rcases List.mem_append.mp hx with hx | hx
          · have hp := List.pairwise_append.mp hinv.pairD
            exact hp.2.2 x hx v hvQ
          · rw [List.mem_singleton.mp hx]
            unfold dvalB
            exact le_refl _
        · intro q hq
          dsimp only at hq ⊢
          refine ⟨hpairQ q hq, ?_⟩
          have h1 := (hQ0 q (by rw [hQ]; simp [hq])).2
          have h2 := hwin.1
          unfold dvalB at h1 h2 ⊢
          omega
      exact bfsLoop_BInv G s fuel _ ((st.D v).getD 0) hfold.inv hfold.bS hfold.bQ

/-- The state right after the source is dequeued satisfies the BFS
invariant. -/
lemma BInv_startB (G : Graph) (s : ℕ) (hs : s ∈ G.nodes) :
    BInv G s { S := [s], P := fun _ => [],
               sigma := fun v => if v = s then 1 else 0,
               D := fun v => if v = s then some 0 else none, Q := [] } := by
  refine ⟨List.nodup_singleton s, ?_, ?_, ?_, ?_, List.nodup_nil, by simp, by simp,
    rfl, ?_, ?_, ?_, ?_, ?_, ?_, ?_⟩
  · intro x hx
    rw [List.mem_singleton.mp hx]
    exact hs
  · intro x hx
    simp at hx
  · intro x
    dsimp only
    by_cases hx : x = s
    · subst hx
      simp
    · rw [if_neg hx]
      simp [hx]
  · intro x hx
    simp at hx
  · intro x hx
    rw [List.mem_singleton.mp hx]
    simp
  · intro x hx
    dsimp only at hx ⊢
    by_cases hxs : x = s
    · rw [if_pos hxs] at hx
      simp at hx
    · rw [if_neg hxs] at hx ⊢
      exact ⟨rfl, rfl⟩
  · intro x hx hxs
    exact absurd (List.mem_singleton.mp hx) hxs
  · intro q hq
    simp at hq
  · intro A B w hAB u hu
    simp at hu
  · intro A B w hAB hws
    dsimp only at hAB
    cases A with
    | nil =>
      rw [List.nil_append] at hAB
      injection hAB with h1 h2
      exact absurd h1.symm hws
    | cons a A' =>
      rw [List.cons_append] at hAB
      injection hAB with h1 h2
      simp at h2
  · simp

/-- The final state of the unweighted single-source traversal satisfies the
invariant when the source is a node of the graph. -/
lemma bfs_fin_BInv (G : Graph) (s : ℕ) (hs : s ∈ G.nodes) :
    BInv G s (bfsLoop G (G.nodes.length + 1)
      { S := [], P := fun _ => [],
        sigma := fun v => if v = s then 1 else 0,
        D := fun v => if v = s then some 0 else none, Q := [s] }) := by
  rw [bfsLoop]
  dsimp only
  have hD : (if s = s then some (0 : ℕ) else none) = some 0 := if_pos rfl
  have hsg : (if s = s then (1 : ℚ) else 0) = 1 := if_pos rfl
  rw [hD, hsg]
  have hfold := bfsVisitFold_BFold G s s 0 1 (G.adj s)
    { S := [s], P := fun _ => [],
      sigma := fun v => if v = s then 1 else 0,
      D := fun v => if v = s then some 0 else none, Q := [] }
    ⟨BInv_startB G s hs, by simp, hD, hsg, ?_, ?_⟩
    (fun w hw => G.adj_mem s w hw)
  · exact bfsLoop_BInv G s (G.nodes.length) _ 0 hfold.inv hfold.bS hfold.bQ
  · intro x hx
    rw [List.mem_singleton.mp hx]
    unfold dvalB
    dsimp only
    rw [hD]
    exact le_refl _
  · intro q hq
    simp at hq

/-- The basic accumulation raises each entry of the betweenness map by at
most `n - 2` and never raises the source's entry, given the facts the
shortest-path engines guarantee. -/
lemma acc_basic_le (G : Graph) (bt : ScoreMap) (s : ℕ)
    (S : List ℕ) (P : ℕ → List ℕ) (σ : ℕ → ℚ)
    (hσnn : ∀ x, 0 ≤ σ x) (hnodup : S.Nodup) (hmem : ∀ v ∈ S, v ∈ G.nodes)
    (hpos : ∀ v ∈ S, 0 < σ v)
    (hadd : ∀ v ∈ S, v ≠ s → σ v = ((P v).map σ).sum)
    (hpred : ∀ (A B : List ℕ) (w : ℕ), S = A ++ w :: B → ∀ u ∈ P w, u ∈ A)
    (hhead : ∀ (A B : List ℕ) (w : ℕ), S = A ++ w :: B → w ≠ s → s ∈ A)
    (x : ℕ) :
    dget ((_accumulate_basic bt S P σ s).1) x
      ≤ dget bt x + (if x ≠ s then max 0 ((G.nodes.length : ℚ) - 2) else 0) := by
  have hb := accFoldB_bound P σ s S hσnn hnodup hpos hadd hpred hhead
    S.reverse [] bt (fun _ => 0) (by simp) (fun u => by simp [sumD]) x
  unfold _accumulate_basic
  refine le_trans hb ?_
  have hSlen : (S.length : ℚ) ≤ (G.nodes.length : ℚ) := by
    exact_mod_cast List.Subperm.length_le (List.subperm_of_subset hnodup hmem)
  gcongr dget bt x + ?_
  by_cases hc : x ∈ S.reverse ∧ x ≠ s
  · rw [if_pos hc, if_pos hc.2]
    refine le_max_of_le_right ?_
    linarith
  · rw [if_neg hc]
    by_cases hxs : x ≠ s
    · rw [if_pos hxs]
      exact le_max_left 0 _
    · rw [if_neg hxs]

/-- Per-source bound: one source's run of the engine plus basic accumulation
raises each entry by at most `n - 2` and never raises the source's entry. -/
lemma bcStep_le (G : Graph) (weight : Bool) (bt : ScoreMap) (s : ℕ)
    (hs : s ∈ G.nodes) (x : ℕ) :
    dget (bcStep G weight false bt s) x
      ≤ dget bt x + (if x ≠ s then max 0 ((G.nodes.length : ℚ) - 2) else 0) := by
  cases weight with
  | true =>
    have hinv := dijk_fin_DInv G s hs
    have hnn := dijk_sigma_nonneg G s
    exact acc_basic_le G bt s _ _ _ hnn hinv.nodupS hinv.memS hinv.sposS
      (fun v hv hvs => (hinv.addS v hv hvs).1) hinv.predS hinv.headS x
  | false =>
    have hinv := bfs_fin_BInv G s hs
    have hnn := sssp_sigma_nonneg G s
    exact acc_basic_le G bt s _ _ _ hnn hinv.nodupS hinv.memS hinv.sposS
      (fun v hv hvs => (hinv.addS v hv hvs).1) hinv.predS hinv.headS x

/-- Summing per-source contributions, each at most `C`, with the
contribution of `x` itself non-positive, stays below `(len - 1) * C` when
`x` occurs among the (distinct) sources. -/
lemma sum_le_count (x : ℕ) (C : ℚ) (hC : 0 ≤ C) :
    ∀ (ns : List ℕ) (f : ℕ → ℚ), ns.Nodup → (∀ s ∈ ns, f s ≤ C) →
      (x ∈ ns → f x ≤ 0) →
      (ns.map f).sum ≤ (ns.length : ℚ) * C - (if x ∈ ns then C else 0)
  | [], f, _, _, _ => by simp
  | s :: ns, f, hnd, hub, hx => by
    rw [List.map_cons, List.sum_cons, List.length_cons]
    have ih := sum_le_count x C hC ns f hnd.of_cons
      (fun u hu => hub u (by simp [hu])) (fun hu => hx (by simp [hu]))
    push_cast
    by_cases hxs : x = s
    · subst hxs
      have hxn : x ∉ ns := (List.nodup_cons.mp hnd).1
      have h1 : f x ≤ 0 := hx (by simp)
      rw [if_pos (List.mem_cons_self x ns)]
      rw [if_neg hxn] at ih
      linarith
    · have hmem : (x ∈ s :: ns) ↔ (x ∈ ns) := by simp [hxs]
      have h1 : f s ≤ C := hub s (by simp)
      rw [if_congr hmem rfl rfl]
      by_cases hxn : x ∈ ns
      · rw [if_pos hxn] at ih ⊢
        linarith
      · rw [if_neg hxn] at ih ⊢
        linarith

/-- The raw accumulated map of an unsampled, endpoint-free run is bounded by
`(n - 1)(n - 2)` at every graph node. -/
lemma raw_le (G : Graph) (weight : Bool) (seed : ℕ) (n_jobs : Int) (ncpus : ℕ)
    (raw : ScoreMap)
    (h : bcRaw G none weight false seed n_jobs ncpus = .ok raw)
    (x : ℕ) (hx : x ∈ G.nodes) :
    dget raw x ≤ ((G.nodes.length : ℚ) - 1) * max 0 ((G.nodes.length : ℚ) - 2) := by
  obtain ⟨hk, ns, hne, hsrc, hval⟩ := bcRaw_ok G none weight false seed n_jobs ncpus raw h
  replace hsrc : Except.ok (ε := Err) G.nodes = Except.ok ns := hsrc
  obtain rfl : G.nodes = ns := Except.ok.inj hsrc
  rw [hval x]
  have hC : (0 : ℚ) ≤ max 0 ((G.nodes.length : ℚ) - 2) := le_max_left 0 _
  have hone : ∀ s, _betweenness_centrality_node_subset G [s] weight false
      = bcStep G weight false (G.nodes.map (fun v => (v, (0 : ℚ)))) s := fun s => rfl
  have hbound := sum_le_count x (max 0 ((G.nodes.length : ℚ) - 2)) hC G.nodes
    (fun s => dget (_betweenness_centrality_node_subset G [s] weight false) x)
    G.nodes_nodup
    (fun s hs => by
      dsimp only
      rw [hone s]
      have hb := bcStep_le G weight (G.nodes.map (fun v => (v, (0 : ℚ)))) s hs x
      rw [dget_zeroMap] at hb
      refine le_trans hb ?_
      rw [zero_add]
      by_cases hxs : x ≠ s
      · rw [if_pos hxs]
      · rw [if_neg hxs]
        exact hC)
    (fun hxin => by
      dsimp only
      rw [hone x]
      have hb := bcStep_le G weight (G.nodes.map (fun v => (v, (0 : ℚ)))) x hxin x
      rw [dget_zeroMap] at hb
      simpa using hb)
  refine le_trans hbound ?_
  rw [if_pos hx]
  ring_nf
  exact le_refl _

/-- Membership in a map with duplicate-free keys determines the value as the
lookup of the key. -/
lemma mem_val (m : ScoreMap) (ks : List ℕ) (hk : m.map Prod.fst = ks)
    (hnd : ks.Nodup) (p : ℕ × ℚ) (hp : p ∈ m) : p.1 ∈ ks ∧ p.2 = dget m p.1 := by
  rw [map_keyed m ks hk hnd] at hp
  obtain ⟨v, hv, rfl⟩ := List.mem_map.mp hp
  exact ⟨hv, rfl⟩

/- ----------------------------------------------------------------------
Claim theorems for the tournament family.
---------------------------------------------------------------------- -/

/-- C2, counterexample to the claim as stated: in the scenario-2 tournament,
`is_reachable(G, 3, 2)` returns `false`, yet no two-hop neighborhood `S`
satisfies the claim's blocking condition `3 ∈ S ∧ 2 ∉ S ∧ S closed` with the
claim's reading of closed ("no edge from outside S into S") — so the claimed
equivalence fails: the code blocks on `S = N(2) = {0, 3}`, into which the
outside edge `1 → 0` points. -/
theorem claim_C2_counterexample :
    is_reachable Gscenario2 3 2 1 = false ∧
      ∀ S ∈ Gscenario2.nodes.map (twoNbrhood Gscenario2),
        ¬(3 ∈ S ∧ 2 ∉ S ∧ spec_closed Gscenario2 S) :=
  ⟨by decide, by decide⟩

/-- C2, amended: for every tournament `G` and nodes `s`, `t`, `is_reachable`
returns true iff no two-hop neighborhood `S` (over all nodes of `G`)
satisfies the blocking condition `s ∈ S ∧ t ∉ S ∧ S closed`, where closed is
the source's condition — every node outside `S` has an edge into every node
of `S` (in a tournament: no edge leaves `S`); the result is the
AND-reduction of the per-chunk closure checks. -/
theorem claim_C2 (G : Graph) (s t : ℕ) (ncpus : ℕ) :
    is_reachable G s t ncpus = true ↔
      ∀ S ∈ G.nodes.map (twoNbrhood G),
        ¬(s ∈ S ∧ t ∉ S ∧ is_closed G S = true) :=
  is_reachable_iff G s t ncpus

/-- C3: for every tournament `G`, `is_strongly_connected(G)` returns true iff
`is_reachable(G, u, v)` holds for every ordered pair of nodes `(u, v)` —
the chunked, AND-reduced computation realizes exactly the all-pairs
quantifier. -/
theorem claim_C3 (G : Graph) (ncpus : ℕ) :
    is_strongly_connected G ncpus = true ↔
      ∀ u ∈ G.nodes, ∀ v ∈ G.nodes, is_reachable G u v ncpus = true := by
  rw [is_strongly_connected_iff]
  exact ⟨fun h u hu v hv => h v hv u hu, fun h v hv u hu => h u hu v hv⟩

/-- C9: for every tournament `G` and every node `v`, `is_reachable(G, v, v)`
returns true — with `s = t` the blocking condition `s ∈ S ∧ t ∉ S` is
unsatisfiable, so every per-neighborhood check passes (and a reflexive pair
never falsifies `is_strongly_connected`). -/
theorem claim_C9 (G : Graph) (v : ℕ) (ncpus : ℕ) :
    is_reachable G v v ncpus = true := by
  rw [is_reachable_eq, List.all_eq_true]
  intro S _
  simp only [Bool.and_assoc, Bool.not_eq_eq_eq_not, Bool.not_true, Bool.and_eq_false_imp]
  intro hv
  simp [hv]

/- ----------------------------------------------------------------------
Claim theorems for betweenness centrality.
---------------------------------------------------------------------- -/

/-- C1: for every graph and every worker-count request, running
`betweenness_centrality` equals running it with a single worker
(`n_jobs = 1`), error cases included: the chunked map/reduce never changes
the result (exactly, since scores are embedded as rationals). -/
theorem claim_C1 (G : Graph) (k : Option ℕ) (normalized weight endpoints : Bool)
    (seed : ℕ) (n_jobs : Int) (ncpus : ℕ) :
    betweenness_centrality G k normalized weight endpoints seed n_jobs ncpus
      = betweenness_centrality G k normalized weight endpoints seed 1 ncpus := by
  have hraw : bcRaw G k weight endpoints seed n_jobs ncpus
      = bcRaw G k weight endpoints seed 1 ncpus := by
    unfold bcRaw
    cases k with
    | none => exact bcCore_eq G weight endpoints G.nodes _ _
    | some kv =>
      show (sampleSeed seed G.nodes kv >>= fun ns =>
          bcCore G weight endpoints ns (cpu_count ncpus n_jobs))
        = (sampleSeed seed G.nodes kv >>= fun ns =>
          bcCore G weight endpoints ns (cpu_count ncpus 1))
      cases hs : sampleSeed seed G.nodes kv with
      | error e => rfl
      | ok ns => exact bcCore_eq G weight endpoints ns _ _
  unfold betweenness_centrality
  rw [hraw]

/-- C4: requesting a sample size `k` strictly larger than the node count
makes `betweenness_centrality` return the `InvalidParameter`-style error
(`random.sample`'s `ValueError`), deterministically — whatever the other
parameters and worker count — rather than clamping; the error arises at the
sampling step, before any chunk is formed or dispatched. -/
theorem claim_C4 (G : Graph) (kv : ℕ) (normalized weight endpoints : Bool)
    (seed : ℕ) (n_jobs : Int) (ncpus : ℕ) (h : G.nodes.length < kv) :
    betweenness_centrality G (some kv) normalized weight endpoints seed n_jobs ncpus
      = .error .invalidParameter := by
  have hs : sampleSeed seed G.nodes kv = .error .invalidParameter := by
    simp [sampleSeed, h]
  show ((sampleSeed seed G.nodes kv >>= fun ns =>
      bcCore G weight endpoints ns (cpu_count ncpus n_jobs)) >>= fun bt_c =>
        pure (_rescale bt_c G.nodes.length normalized G.directed (some kv) endpoints))
    = .error .invalidParameter
  rw [hs]
  rfl

/-- C4 witness: on the scenario-2 tournament (4 nodes), `k = 5` yields the
invalid-parameter error. -/
theorem claim_C4_witness :
    Gscenario2.nodes.length < 5 ∧
      betweenness_centrality Gscenario2 (some 5) true false false 0 (-1) 4
        = .error .invalidParameter :=
  ⟨by decide, claim_C4 Gscenario2 5 true false false 0 (-1) 4 (by decide)⟩

/-- C5: every entry point of the embedding is a pure function, so calling it
twice with identical arguments — the same graph, parameters and seed —
returns identical results; in particular the seeded sampler resolves the
same source list on repeated calls with the same `seed` and `k`. -/
theorem claim_C5 (G : Graph) (k : Option ℕ) (normalized weight endpoints : Bool)
    (seed : ℕ) (n_jobs : Int) (ncpus s t : ℕ) (l : List ℕ) (kv : ℕ) :
    betweenness_centrality G k normalized weight endpoints seed n_jobs ncpus
        = betweenness_centrality G k normalized weight endpoints seed n_jobs ncpus
      ∧ sampleSeed seed l kv = sampleSeed seed l kv
      ∧ is_reachable G s t ncpus = is_reachable G s t ncpus
      ∧ is_strongly_connected G ncpus = is_strongly_connected G ncpus :=
  ⟨rfl, rfl, rfl, rfl⟩

/-- C6: for every graph, parameter combination and chunk, the per-chunk
partial map is keyed exactly by the graph's full node list, and so is the
final mapping of every successful `betweenness_centrality` call — sampling
`k` only selects sources, never the zero-initialized key set. -/
theorem claim_C6 (G : Graph) (chunk : List ℕ) (k : Option ℕ)
    (normalized weight endpoints : Bool) (seed : ℕ) (n_jobs : Int) (ncpus : ℕ)
    (m : ScoreMap)
    (h : betweenness_centrality G k normalized weight endpoints seed n_jobs ncpus
      = .ok m) :
    (_betweenness_centrality_node_subset G chunk weight endpoints).map Prod.fst
        = G.nodes
      ∧ m.map Prod.fst = G.nodes := by
  refine ⟨node_subset_keys G chunk weight endpoints, ?_⟩
  unfold betweenness_centrality at h
  cases hr : bcRaw G k weight endpoints seed n_jobs ncpus with
  | error e =>
    rw [hr] at h
    exact Except.noConfusion h
  | ok raw =>
    rw [hr] at h
    replace h : Except.ok (_rescale raw G.nodes.length normalized G.directed k endpoints)
        = Except.ok m := h
    rw [← Except.ok.inj h, _rescale_keys]
    exact (bcRaw_ok G k weight endpoints seed n_jobs ncpus raw hr).1

unseal Rat.add Rat.mul Rat.inv Rat.sub in
/-- C6 witness: a successful run on the path graph `0 — 1 — 2`. -/
theorem claim_C6_witness :
    betweenness_centrality Gpath3 none true false false 0 1 4
        = .ok [(0, 0), (1, 1), (2, 0)]
      ∧ ((_betweenness_centrality_node_subset Gpath3 [2, 0] false false).map Prod.fst
            = Gpath3.nodes
          ∧ [((0 : ℕ), (0 : ℚ)), (1, 1), (2, 0)].map Prod.fst = Gpath3.nodes) :=
  ⟨by decide,
    claim_C6 Gpath3 [2, 0] none true false false 0 1 4 _ (by decide)⟩

/-- C7: the reduction of the per-chunk maps is element-wise addition — the
reduced map holds, at each key, the sum of the per-chunk values — and, since
rational addition is commutative and associative, any permutation of the
chunk-result list reduces to the same map. -/
theorem claim_C7 (ns : List ℕ) (m0 m0' : ScoreMap) (rest rest' : List ScoreMap)
    (hnd : ns.Nodup)
    (hkeys : ∀ m ∈ m0 :: rest, m.map Prod.fst = ns)
    (hperm : (m0 :: rest).Perm (m0' :: rest')) :
    reducePartial m0 rest = reducePartial m0' rest'
      ∧ ∀ x, dget (reducePartial m0 rest) x
          = ((m0 :: rest).map (fun m => dget m x)).sum := by
  have hkeys' : ∀ m ∈ m0' :: rest', m.map Prod.fst = ns := fun m hm =>
    hkeys m (hperm.mem_iff.mpr hm)
  have hv : ∀ x, dget (reducePartial m0 rest) x
      = ((m0 :: rest).map (fun m => dget m x)).sum := by
    intro x
    rw [reducePartial_dget rest m0 ns hnd (hkeys m0 (by simp))
        (fun m hm => hkeys m (by simp [hm])) x]
    simp
  have hv' : ∀ x, dget (reducePartial m0' rest') x
      = ((m0' :: rest').map (fun m => dget m x)).sum := by
    intro x
    rw [reducePartial_dget rest' m0' ns hnd (hkeys' m0' (by simp))
        (fun m hm => hkeys' m (by simp [hm])) x]
    simp
  refine ⟨?_, hv⟩
  refine alist_ext ns hnd _ _ ?_ ?_ ?_
  · rw [reducePartial_keys]
    exact hkeys m0 (by simp)
  · rw [reducePartial_keys]
    exact hkeys' m0' (by simp)
  · intro x _
    rw [hv x, hv' x]
    exact (hperm.map (fun m => dget m x)).sum_eq

unseal Rat.add Rat.mul Rat.inv Rat.sub in
/-- C7 witness: permuting two concrete chunk maps leaves the reduction
unchanged. -/
theorem claim_C7_witness :
    ([0, 1] : List ℕ).Nodup
      ∧ (∀ m ∈ [[((0 : ℕ), (1 : ℚ)), (1, 2)], [(0, 5), (1, 7)]],
          m.map Prod.fst = [0, 1])
      ∧ ([[((0 : ℕ), (1 : ℚ)), (1, 2)], [(0, 5), (1, 7)]].Perm
          [[(0, 5), (1, 7)], [(0, 1), (1, 2)]])
      ∧ reducePartial [((0 : ℕ), (1 : ℚ)), (1, 2)] [[(0, 5), (1, 7)]]
          = reducePartial [(0, 5), (1, 7)] [[(0, 1), (1, 2)]] :=
  ⟨by decide, by decide, by decide,
    (claim_C7 [0, 1] [(0, 1), (1, 2)] [(0, 5), (1, 7)] [[(0, 5), (1, 7)]]
      [[(0, 1), (1, 2)]] (by decide) (by decide) (by decide)).1⟩

unseal Rat.add Rat.mul Rat.inv Rat.sub in
/-- C8, counterexample to the claim as stated: on the undirected path
`0 — 1 — 2` with `normalized = true`, `endpoints = false` and sampling
`k = 1` (seed resolving the sample to `[0]`), the returned mapping holds
`3/2` at node `1` — outside `[0, 1]` — because the `n/k` sampling
correction scales the single-source estimate above the exact maximum. -/
theorem claim_C8_counterexample :
    betweenness_centrality Gpath3 (some 1) true false false 0 1 4
        = .ok [(0, 0), (1, 3 / 2), (2, 0)]
      ∧ Gpath3.directed = false
      ∧ ¬((3 : ℚ) / 2 ≤ 1) :=
  ⟨by decide, rfl, by decide⟩

/-- C8, amended: every raw accumulated value is non-negative for every graph
and parameter combination; and for a normalized, endpoint-free run over an
undirected graph WITHOUT sampling (`k = None`) every returned value lies in
`[0, 1]` — sampling applies an `n/k` correction that can push values above 1,
so the original claim's interval statement holds only without it. -/
theorem claim_C8 (G : Graph) (k : Option ℕ) (normalized weight endpoints : Bool)
    (seed : ℕ) (n_jobs : Int) (ncpus : ℕ) (raw m : ScoreMap)
    (hraw : bcRaw G k weight endpoints seed n_jobs ncpus = .ok raw)
    (hm : betweenness_centrality G k normalized weight endpoints seed n_jobs ncpus = .ok m) :
    (∀ p ∈ raw, 0 ≤ p.2) ∧
    (normalized = true → G.directed = false → endpoints = false → k = none →
      ∀ p ∈ m, 0 ≤ p.2 ∧ p.2 ≤ 1) := by
  obtain ⟨hkeys, _, _, _, _⟩ := bcRaw_ok G k weight endpoints seed n_jobs ncpus raw hraw
  constructor
  · intro p hp
    obtain ⟨hmem, hval⟩ := mem_val raw G.nodes hkeys G.nodes_nodup p hp
    rw [hval]
    exact raw_values_nonneg G k weight endpoints seed n_jobs ncpus raw hraw p.1
  · intro hnorm hdir hep hk0
    subst hnorm
    subst hep
    subst hk0
    unfold betweenness_centrality at hm
    rw [hraw] at hm
    replace hm : Except.ok (_rescale raw G.nodes.length true G.directed none false)
        = Except.ok m := hm
    obtain rfl : _rescale raw G.nodes.length true G.directed none false = m :=
      Except.ok.inj hm
    by_cases hn : G.nodes.length ≤ 2
    · have hre : _rescale raw G.nodes.length true G.directed none false = raw := by
        unfold _rescale
        dsimp only
        rw [if_pos hn]
        rfl
      rw [hre]
      intro p hp
      obtain ⟨hmem, hval⟩ := mem_val raw G.nodes hkeys G.nodes_nodup p hp
      have h0 := raw_values_nonneg G none weight false seed n_jobs ncpus raw hraw p.1
      have h1 := raw_le G weight seed n_jobs ncpus raw hraw p.1 hmem
      have hmax : max 0 ((G.nodes.length : ℚ) - 2) = 0 := by
        have : ((G.nodes.length : ℚ)) ≤ 2 := by exact_mod_cast hn
        rw [max_eq_left]
        linarith
      rw [hmax, mul_zero] at h1
      rw [hval]
      refine ⟨h0, le_trans h1 (by norm_num)⟩
    · have hre : _rescale raw G.nodes.length true G.directed none false
          = raw.map (fun p => (p.1,
              p.2 * (1 / (((G.nodes.length : ℚ) - 1) * ((G.nodes.length : ℚ) - 2))))) := by
        unfold _rescale
        dsimp only
        rw [if_neg hn]
        rfl
      rw [hre]
      intro p hp
      obtain ⟨q, hq, rfl⟩ := List.mem_map.mp hp
      obtain ⟨hmem, hval⟩ := mem_val raw G.nodes hkeys G.nodes_nodup q hq
      have h0 := raw_values_nonneg G none weight false seed n_jobs ncpus raw hraw q.1
      have h1 := raw_le G weight seed n_jobs ncpus raw hraw q.1 hmem
      have hn3 : (3 : ℚ) ≤ (G.nodes.length : ℚ) := by
        have : 3 ≤ G.nodes.length := by omega
        exact_mod_cast this
      have hmax : max 0 ((G.nodes.length : ℚ) - 2) = (G.nodes.length : ℚ) - 2 := by
        rw [max_eq_right]
        linarith
      rw [hmax] at h1
      have hpos : 0 < ((G.nodes.length : ℚ) - 1) * ((G.nodes.length : ℚ) - 2) := by
        apply mul_pos <;> linarith
      have hscale : 0 < 1 / (((G.nodes.length : ℚ) - 1) * ((G.nodes.length : ℚ) - 2)) :=
        by positivity
      dsimp only
      constructor
      · rw [hval]
        exact mul_nonneg h0 (le_of_lt hscale)
      · rw [hval]
        calc dget raw q.1 * (1 / (((G.nodes.length : ℚ) - 1) * ((G.nodes.length : ℚ) - 2)))
            ≤ (((G.nodes.length : ℚ) - 1) * ((G.nodes.length : ℚ) - 2))
              * (1 / (((G.nodes.length : ℚ) - 1) * ((G.nodes.length : ℚ) - 2))) := by
              exact mul_le_mul_of_nonneg_right h1 (le_of_lt hscale)
          _ = 1 := by
              field_simp

unseal Rat.add Rat.mul Rat.inv Rat.sub in
/-- Witness for C8 on the 3-node path graph: the raw map is `{0: 0, 1: 2,
2: 0}` and the normalized unsampled result `{0: 0, 1: 1, 2: 0}` lies in
`[0, 1]`. -/
theorem claim_C8_witness :
    (∀ p ∈ [((0 : ℕ), (0 : ℚ)), (1, 2), (2, 0)], 0 ≤ p.2) ∧
    (true = true → Gpath3.directed = false → false = false → (none : Option ℕ) = none →
      ∀ p ∈ [((0 : ℕ), (0 : ℚ)), (1, 1), (2, 0)], 0 ≤ p.2 ∧ p.2 ≤ 1) :=
  claim_C8 Gpath3 none true false false 0 1 4
    [(0, 0), (1, 2), (2, 0)] [(0, 0), (1, 1), (2, 0)] (by decide) (by decide)

/-- C10: whenever the resolved source list is empty — no graph nodes with
`k` unset, or `k = 0` — `betweenness_centrality` returns the `IndexError`
from `bt_cs[0]` on the empty chunk-result list instead of an empty or
all-zero mapping. -/
theorem claim_C10 (G : Graph) (k : Option ℕ) (normalized weight endpoints : Bool)
    (seed : ℕ) (n_jobs : Int) (ncpus : ℕ)
    (h : (k = none ∧ G.nodes = []) ∨ k = some 0) :
    betweenness_centrality G k normalized weight endpoints seed n_jobs ncpus
      = .error .indexError := by
  have hraw : bcRaw G k weight endpoints seed n_jobs ncpus = .error .indexError := by
    rcases h with ⟨rfl, hn⟩ | rfl
    · show bcCore G weight endpoints G.nodes (cpu_count ncpus n_jobs)
        = .error .indexError
      rw [hn, bcCore_nil]
    · have hs : sampleSeed seed G.nodes 0 = .ok [] := by
        simp [sampleSeed]
      show (sampleSeed seed G.nodes 0 >>= fun ns =>
          bcCore G weight endpoints ns (cpu_count ncpus n_jobs)) = .error .indexError
      rw [hs]
      show bcCore G weight endpoints [] (cpu_count ncpus n_jobs) = .error .indexError
      rw [bcCore_nil]
  unfold betweenness_centrality
  rw [hraw]
  rfl

/-- C10 witness: the empty graph with `k` unset, and the path graph with
`k = 0`, both return the index error. -/
theorem claim_C10_witness :
    ((none = (none : Option ℕ) ∧ Gempty.nodes = ([] : List ℕ))
        ∨ (none : Option ℕ) = some 0)
      ∧ betweenness_centrality Gempty none true false false 0 (-1) 4
          = .error .indexError :=
  ⟨Or.inl ⟨rfl, rfl⟩,
    claim_C10 Gempty none true false false 0 (-1) 4 (Or.inl ⟨rfl, rfl⟩)⟩

end NxParallel
